import Mathlib

/-!
Verification of the parsehttp stream-reassembly / HTTP transaction core
(src/main.rs) against its natural-language specification.

Shallow embedding conventions:
* TCP payload bytes are `List Nat` (`Bytes`); ASCII string literals are turned
  into byte lists with `chrs`.  `String::from_utf8_lossy` is modelled as the
  identity on bytes: it is exact on valid UTF-8 / ASCII data, and every
  byte-level operation performed by the code on the lossy string (ASCII
  lowercasing of header names, `parse::<usize>`, substring search for the ASCII
  pattern "text/event-stream", splitting on "\n\n", whitespace trimming)
  preserves ASCII bytes, so the two views agree on everything the claims
  mention.
* The HTTP/1.x header parser is the external `httparse` crate, whose code is
  not part of this repository; it is modelled from the spec (§4.3: request
  line / status line plus `Name: value` header lines terminated by CRLFCRLF,
  Incomplete / Invalid / Complete(amt) outcomes) together with the 64-entry
  header array that `process_stream` hands to it (an over-long header block
  yields the TooManyHeaders error, an Invalid outcome).
* The emitter (`output_transaction`) is modelled by recording the
  `HttpTransaction` snapshot passed to each call; the `req_printed := true`
  update that `output_transaction` performs on the non-SSE path is dropped
  because both non-SSE call sites in `process_stream` immediately clear
  `current_tx`, so the update is unobservable.
* The `while` loop of `process_stream` is encoded with explicit fuel
  (`processAux`); `data.length + 1` units of fuel are proved sufficient
  (every iteration that continues consumes at least one byte).
-/

/-- Byte strings, one `Nat` per byte. -/
abbrev Bytes := List Nat

/-- ASCII string literal to bytes (used only for ASCII literals). -/
def chrs (s : String) : Bytes := s.data.map (fun c => c.toNat)

/-- ASCII lowercasing, modelling `str::to_lowercase` on header names
(header names are ASCII tokens, so ASCII lowercasing is exact). -/
def lowerB (b : Bytes) : Bytes := b.map (fun c => if 65 ≤ c ∧ c ≤ 90 then c + 32 else c)

/-- RFC 7230 token bytes, the characters `httparse` accepts in header names
and request methods. -/
def isTokenByte (c : Nat) : Bool :=
  decide (48 ≤ c ∧ c ≤ 57) || decide (65 ≤ c ∧ c ≤ 90) || decide (97 ≤ c ∧ c ≤ 122) ||
  ([33, 35, 36, 37, 38, 39, 42, 43, 45, 46, 94, 95, 96, 124, 126] : Bytes).contains c

/-- Space or horizontal tab: the bytes `httparse` strips around header values. -/
def isSpHt (c : Nat) : Bool := c == 32 || c == 9

/-- ASCII whitespace as recognised by Rust's `str::trim`
(HT, LF, VT, FF, CR, SP; the non-ASCII whitespace code points do not occur
in the byte-level view). -/
def isWsByte (c : Nat) : Bool := decide (9 ≤ c ∧ c ≤ 13) || c == 32

/-- Trim leading and trailing SP/HT, as `httparse` does around header values. -/
def trimValue (v : Bytes) : Bytes :=
  ((v.dropWhile isSpHt).reverse.dropWhile isSpHt).reverse

/-- Trim leading and trailing whitespace, modelling `str::trim` on SSE events. -/
def trimEvent (v : Bytes) : Bytes :=
  ((v.dropWhile isWsByte).reverse.dropWhile isWsByte).reverse

/-- Substring test, modelling `str::contains` for the ASCII pattern
"text/event-stream". -/
def containsSub (pat : Bytes) : Bytes → Bool
  | [] => pat.isEmpty
  | c :: rest => pat.isPrefixOf (c :: rest) || containsSub pat rest

/-- Model of `str::parse::<usize>`: optional leading `+`, at least one ASCII
digit, nothing else, and the value must fit in 64 bits. -/
def parseUsize (v : Bytes) : Option Nat :=
  let core := match v with
    | 43 :: rest => rest
    | _ => v
  if core.isEmpty then none
  else if core.all (fun c => decide (48 ≤ c ∧ c ≤ 57)) then
    let n := core.foldl (fun a c => a * 10 + (c - 48)) 0
    if n < 18446744073709551616 then some n else none
  else none

/-- Decimal rendering of a `Nat`, for the `{}` formatting of the status code. -/
def natDec (n : Nat) : Bytes := (Nat.toDigits 10 n).map (fun c => c.toNat)

/-- Index of the first CRLF pair in a byte buffer. -/
def findCRLF : Bytes → Option Nat
  | [] => none
  | [_] => none
  | a :: b :: rest =>
    if a == 13 && b == 10 then some 0 else (findCRLF (b :: rest)).map (· + 1)

/-- Split on the two-byte sequence `\n\n`, modelling `str::split("\n\n")`
(left-to-right, non-overlapping, keeps empty segments). -/
def splitNN : Bytes → List Bytes
  | [] => [[]]
  | 10 :: 10 :: rest => [] :: splitNN rest
  | c :: rest =>
    match splitNN rest with
    | [] => [[c]]
    | s :: ss => (c :: s) :: ss

/-- One parsed header: name (original case) and value (SP/HT-trimmed). -/
structure HeaderKV where
  name : Bytes
  value : Bytes
deriving DecidableEq

/-- Outcome of a header-block parse attempt, mirroring
`httparse::Status::Complete` / `Partial` / `Err`.  `process_stream` only acts
on `complete`; both other outcomes leave the buffer untouched. -/
inductive PStatus (α : Type) where
  | complete (amt : Nat) (val : α)
  | incomplete
  | invalid
deriving DecidableEq

/-- Modelled from the spec: parse one `Name: value` header line (without its
CRLF), as the httparse crate does — the name must be a non-empty token, the
value is SP/HT-trimmed. -/
def parseHeaderLine (line : Bytes) : Option HeaderKV :=
  match line.findIdx? (fun c => c == 58) with
  | none => none
  | some i =>
    let name := line.take i
    let value := trimValue (line.drop (i + 1))
    if name ≠ [] ∧ name.all isTokenByte then some ⟨name, value⟩ else none

/-- Modelled from the spec: parse header lines up to and including the blank
CRLF line, with at most `slots` headers (the 64-entry array in
`process_stream`; exceeding it is httparse's TooManyHeaders error, an
`invalid` outcome).  Returns the byte count consumed from `d`.  The first
argument is structural fuel; `d.length + 1` is always sufficient since every
recursive step removes at least three bytes. -/
def parseHeadersAux : Nat → Nat → Bytes → PStatus (List HeaderKV)
  | 0, _, _ => .incomplete
  | f + 1, slots, d =>
    if ([13, 10] : Bytes).isPrefixOf d then .complete 2 []
    else
      match findCRLF d with
      | none => .incomplete
      | some i =>
        if slots = 0 then .invalid
        else
          match parseHeaderLine (d.take i) with
          | none => .invalid
          | some kv =>
            match parseHeadersAux f (slots - 1) (d.drop (i + 2)) with
            | .complete n hs => .complete (i + 2 + n) (kv :: hs)
            | .incomplete => .incomplete
            | .invalid => .invalid

/-- Modelled from the spec: parse a request line
`METHOD SP PATH SP HTTP/1.x` (without its CRLF). -/
def parseRequestLine (line : Bytes) : Option (Bytes × Bytes) :=
  let method := line.takeWhile (fun c => c != 32)
  match line.drop method.length with
  | 32 :: rest1 =>
    let path := rest1.takeWhile (fun c => c != 32)
    match rest1.drop path.length with
    | 32 :: ver =>
      if (ver = chrs ("HTTP/1.1") ∨ ver = chrs ("HTTP/1.0")) ∧
          method ≠ [] ∧ method.all isTokenByte ∧ path ≠ [] then
        some (method, path)
      else none
    | _ => none
  | _ => none

/-- A parsed request head: method, path and headers in on-wire order. -/
structure ReqParsed where
  method : Bytes
  path : Bytes
  headers : List HeaderKV
deriving DecidableEq

/-- Modelled from the spec: `httparse::Request::parse` with the 64-entry
header array of `process_stream` (src/main.rs:224-229). -/
def parseRequest (d : Bytes) : PStatus ReqParsed :=
  match findCRLF d with
  | none => .incomplete
  | some i =>
    match parseRequestLine (d.take i) with
    | none => .invalid
    | some mp =>
      match parseHeadersAux (d.length + 1) 64 (d.drop (i + 2)) with
      | .complete n hs => .complete (i + 2 + n) ⟨mp.1, mp.2, hs⟩
      | .incomplete => .incomplete
      | .invalid => .invalid

/-- Modelled from the spec: parse a status line
`HTTP/1.x SP code [SP reason]` (without its CRLF). -/
def parseResponseLine (line : Bytes) : Option (Nat × Bytes) :=
  if (chrs ("HTTP/1.1")).isPrefixOf line ∨ (chrs ("HTTP/1.0")).isPrefixOf line then
    match line.drop 8 with
    | 32 :: c1 :: c2 :: c3 :: rest2 =>
      if decide (48 ≤ c1 ∧ c1 ≤ 57) && decide (48 ≤ c2 ∧ c2 ≤ 57) &&
          decide (48 ≤ c3 ∧ c3 ≤ 57) then
        let code := (c1 - 48) * 100 + (c2 - 48) * 10 + (c3 - 48)
        match rest2 with
        | [] => some (code, [])
        | 32 :: reason => some (code, reason)
        | _ => none
      else none
    | _ => none
  else none

/-- A parsed response head: status code, reason and headers in on-wire order. -/
structure ResParsed where
  code : Nat
  reason : Bytes
  headers : List HeaderKV
deriving DecidableEq

/-- Modelled from the spec: `httparse::Response::parse` with the 64-entry
header array of `process_stream` (src/main.rs:275-276). -/
def parseResponse (d : Bytes) : PStatus ResParsed :=
  match findCRLF d with
  | none => .incomplete
  | some i =>
    match parseResponseLine (d.take i) with
    | none => .invalid
    | some cr =>
      match parseHeadersAux (d.length + 1) 64 (d.drop (i + 2)) with
      | .complete n hs => .complete (i + 2 + n) ⟨cr.1, cr.2, hs⟩
      | .incomplete => .incomplete
      | .invalid => .invalid

/-- One displayed header line `  Name: value\n` (src/main.rs:238,288). -/
def hLine (kv : HeaderKV) : Bytes :=
  chrs ("  ") ++ kv.name ++ chrs (": ") ++ kv.value ++ [10]

/-- The accumulated `h_str` of the header loops. -/
def hStr (hs : List HeaderKV) : Bytes := (hs.map hLine).flatten

/-- The formatted request prelude stored in `req_header`
(src/main.rs:241-246); `[226, 150, 182]` is UTF-8 for the `▶` glyph. -/
def fmtReqHeader (method path : Bytes) (hs : List HeaderKV) : Bytes :=
  chrs ("\x1b[1;32m") ++ [226, 150, 182] ++ chrs (" REQUEST: ") ++ method ++ [32] ++
    path ++ chrs ("\x1b[0m") ++ [10] ++ hStr hs

/-- The formatted response prelude stored in `res_header`
(src/main.rs:290-295); `[226, 151, 128]` is UTF-8 for the `◀` glyph. -/
def fmtResHeader (code : Nat) (reason : Bytes) (hs : List HeaderKV) : Bytes :=
  chrs ("\x1b[1;34m") ++ [226, 151, 128] ++ chrs (" RESPONSE: ") ++ natDec code ++ [32] ++
    reason ++ chrs ("\x1b[0m") ++ [10] ++ hStr hs

/-- `TransactionState` (src/main.rs:60-65). -/
inductive TransactionState where
  | RequestBody
  | ResponseHeader
  | ResponseBody
deriving DecidableEq

/-- `HttpTransaction` (src/main.rs:67-78). -/
structure HttpTransaction where
  req_header : Bytes
  req_body : Bytes
  expected_req_len : Nat
  res_header : Bytes
  res_body_raw : Bytes
  res_body_events : List Bytes
  expected_res_len : Nat
  is_sse : Bool
  state : TransactionState
  req_printed : Bool
deriving DecidableEq

/-- `StreamBuffer` (src/main.rs:80-83). -/
structure StreamBuffer where
  data : Bytes
  current_tx : Option HttpTransaction
deriving DecidableEq

/-- The Content-Length extraction of the header loops
(src/main.rs:235-237 and 285-287): a plain fold in header order, each
matching header overwriting the previous value (unparseable values become 0). -/
def contentLenOf (hs : List HeaderKV) : Nat :=
  hs.foldl
    (fun acc kv =>
      if lowerB kv.name = chrs ("content-length") then (parseUsize kv.value).getD 0 else acc)
    0

/-- The Content-Type byte pattern tested for SSE. -/
def ssePat : Bytes := chrs ("text/event-stream")

/-- The `is_sse` update of the response header loop (src/main.rs:282-284):
starting from the current flag, any Content-Type header whose value contains
"text/event-stream" sets it. -/
def sseFold (init : Bool) (hs : List HeaderKV) : Bool :=
  hs.foldl
    (fun b kv =>
      if lowerB kv.name = chrs ("content-type") ∧ containsSub ssePat kv.value then true else b)
    init

/-- One iteration of the `process_stream` loop body (src/main.rs:223-333),
before the drain: returns the buffer with its mutated transaction (`data`
untouched), the emitter calls made (each the `HttpTransaction` snapshot passed
to `output_transaction`), and `consumed`. -/
def processStep (sb : StreamBuffer) : StreamBuffer × List HttpTransaction × Nat :=
  match sb.current_tx with
  | none =>
    match parseRequest sb.data with
    | .complete amt r =>
      let cl := contentLenOf r.headers
      let tx : HttpTransaction :=
        { req_header := fmtReqHeader r.method r.path r.headers
          req_body := []
          expected_req_len := cl
          res_header := []
          res_body_raw := []
          res_body_events := []
          expected_res_len := 0
          is_sse := false
          state := if cl > 0 then .RequestBody else .ResponseHeader
          req_printed := false }
      ({ sb with current_tx := some tx }, [], amt)
    | _ => (sb, [], 0)
  | some tx =>
    match tx.state with
    | .RequestBody =>
      let tk := min (tx.expected_req_len - tx.req_body.length) sb.data.length
      let body := tx.req_body ++ sb.data.take tk
      let tx1 := { tx with
        req_body := body
        state := if body.length ≥ tx.expected_req_len then .ResponseHeader else tx.state }
      ({ sb with current_tx := some tx1 }, [], tk)
    | .ResponseHeader =>
      match parseResponse sb.data with
      | .complete amt r =>
        let sse := sseFold tx.is_sse r.headers
        let clen := contentLenOf r.headers
        let tx1 := { tx with
          is_sse := sse
          res_header := fmtResHeader r.code r.reason r.headers
          expected_res_len := clen
          state := .ResponseBody }
        if sse = false ∧ clen = 0 then ({ sb with current_tx := none }, [tx1], amt)
        else ({ sb with current_tx := some tx1 }, [], amt)
      | _ => (sb, [], 0)
    | .ResponseBody =>
      if tx.is_sse then
        let newEvents :=
          (splitNN sb.data).filterMap
            (fun e => let t := trimEvent e; if t = [] then none else some t)
        let tx1 := { tx with res_body_events := tx.res_body_events ++ newEvents }
        ({ sb with current_tx := some tx1 },
          if newEvents = [] then [] else [tx1], sb.data.length)
      else
        let tk := min (tx.expected_res_len - tx.res_body_raw.length) sb.data.length
        let raw := tx.res_body_raw ++ sb.data.take tk
        let tx1 := { tx with res_body_raw := raw }
        if raw.length ≥ tx.expected_res_len then
          ({ sb with current_tx := none }, [tx1], tk)
        else ({ sb with current_tx := some tx1 }, [], tk)

/-- The `process_stream` loop, fuel-indexed: run one step; if it consumed
bytes, drain them from the front of `data` and continue, otherwise stop
(src/main.rs:334-338). -/
def processAux : Nat → StreamBuffer → StreamBuffer × List HttpTransaction
  | 0, sb => (sb, [])
  | f + 1, sb =>
    match processStep sb with
    | (sb1, es, c) =>
      if 0 < c then
        let r := processAux f { sb1 with data := sb1.data.drop c }
        (r.1, es ++ r.2)
      else (sb1, es)

/-- `process_stream` (src/main.rs:222-340): run the loop to its fixed point;
`data.length + 1` fuel always suffices (proved below). -/
def processStream (sb : StreamBuffer) : StreamBuffer × List HttpTransaction :=
  processAux (sb.data.length + 1) sb

/-- Append a payload to the buffer and run `process_stream`
(src/main.rs:147-148). -/
def ingest (sb : StreamBuffer) (payload : Bytes) : StreamBuffer × List HttpTransaction :=
  processStream { sb with data := sb.data ++ payload }

/-- Ingest a sequence of payload chunks in order, concatenating the emissions. -/
def ingestAll (sb : StreamBuffer) : List Bytes → StreamBuffer × List HttpTransaction
  | [] => (sb, [])
  | c :: rest =>
    let r1 := ingest sb c
    let r2 := ingestAll r1.1 rest
    (r2.1, r1.2 ++ r2.2)

/-- Bytes consumed by the next loop iteration from a given buffer state. -/
def stepConsumed (sb : StreamBuffer) : Nat := (processStep sb).2.2

/-- IP addresses as in `std::net::IpAddr`: the `V4` variant precedes `V6` in
the derived ordering; each variant compares its numeric components
lexicographically. -/
inductive IpAddr where
  | v4 (a b c d : Nat)
  | v6 (s0 s1 s2 s3 s4 s5 s6 s7 : Nat)
deriving DecidableEq

/-- Comparison key of an address: variant tag first, then components, giving
exactly the derived `Ord` of `IpAddr` under lexicographic list comparison. -/
def IpAddr.key : IpAddr → List Nat
  | .v4 a b c d => [0, a, b, c, d]
  | .v6 s0 s1 s2 s3 s4 s5 s6 s7 => [1, s0, s1, s2, s3, s4, s5, s6, s7]

/-- Strict lexicographic order on `List Nat` (a shorter list that is a proper
prefix is smaller), as in Rust's derived tuple/array comparisons. -/
def lexLt : List Nat → List Nat → Bool
  | [], [] => false
  | [], _ :: _ => true
  | _ :: _, [] => false
  | x :: xs, y :: ys => decide (x < y) || (decide (x = y) && lexLt xs ys)

/-- The tuple comparison `(src, src_port) < (dst, dst_port)` of
`FlowKey::new` (src/main.rs:46). -/
def epLt (a : IpAddr) (ap : Nat) (b : IpAddr) (bp : Nat) : Bool :=
  lexLt (a.key ++ [ap]) (b.key ++ [bp])

/-- `FlowKey` (src/main.rs:36-42). -/
structure FlowKey where
  addr_a : IpAddr
  port_a : Nat
  addr_b : IpAddr
  port_b : Nat
deriving DecidableEq

/-- `FlowKey::new` (src/main.rs:44-58): put the lexicographically smaller
(address, port) endpoint first. -/
def FlowKey.new (src : IpAddr) (src_port : Nat) (dst : IpAddr) (dst_port : Nat) : FlowKey :=
  if epLt src src_port dst dst_port then
    { addr_a := src, port_a := src_port, addr_b := dst, port_b := dst_port }
  else
    { addr_a := dst, port_a := dst_port, addr_b := src, port_b := src_port }

/-- The `HashMap<FlowKey, StreamBuffer>` of `run_analysis`, as an association
list (insertion order is irrelevant to the claims). -/
abbrev FlowTable := List (FlowKey × StreamBuffer)

/-- Lookup in the flow table. -/
def lookupFT : FlowTable → FlowKey → Option StreamBuffer
  | [], _ => none
  | (k1, sb) :: rest, k => if k1 = k then some sb else lookupFT rest k

/-- Insert-or-replace in the flow table (`HashMap::entry`). -/
def insertFT : FlowTable → FlowKey → StreamBuffer → FlowTable
  | [], k, sb => [(k, sb)]
  | (k1, sb1) :: rest, k, sb =>
    if k1 = k then (k, sb) :: rest else (k1, sb1) :: insertFT rest k sb

/-- One decoded capture record, the input contract of the core (§6): source
and destination endpoints plus the TCP payload bytes. -/
structure PacketRec where
  src : IpAddr
  src_port : Nat
  dst : IpAddr
  dst_port : Nat
  payload : Bytes
deriving DecidableEq

/-- Per-packet handling inside the capture loop (src/main.rs:137-149): empty
payloads are skipped, otherwise the payload is appended to the flow's
`StreamBuffer` (created on first use) and `process_stream` is run. -/
def handlePacket (t : FlowTable) (p : PacketRec) : FlowTable × List HttpTransaction :=
  if p.payload = [] then (t, [])
  else
    let k := FlowKey.new p.src p.src_port p.dst p.dst_port
    let sb := (lookupFT t k).getD { data := [], current_tx := none }
    let r := processStream { data := sb.data ++ p.payload, current_tx := sb.current_tx }
    (insertFT t k r.1, r.2)

/-- The capture loop of `run_analysis` (src/main.rs:128-151) over a finite
packet sequence ending with end-of-stream. -/
def runAnalysisLoop : FlowTable → List PacketRec → FlowTable × List HttpTransaction
  | t, [] => (t, [])
  | t, p :: rest =>
    let r1 := handlePacket t p
    let r2 := runAnalysisLoop r1.1 rest
    (r2.1, r1.2 ++ r2.2)

/-- What `run_analysis` does after its capture loop exits at end-of-stream
(src/main.rs:128-151): the function body ends with the loop, so no flush pass
exists and no further emitter calls are made. -/
def flushFinal (_t : FlowTable) : List HttpTransaction := []

/-- A whole `run_analysis` run: the capture loop over all packets, then the
(empty) terminal behavior at end-of-stream. -/
def runAnalysis (pkts : List PacketRec) : FlowTable × List HttpTransaction :=
  let r := runAnalysisLoop [] pkts
  (r.1, r.2 ++ flushFinal r.1)

/-- Executable well-formedness of an in-progress transaction, satisfied by
every transaction the state machine ever creates: the request body never
exceeds its declared length (strictly below it while still in `RequestBody`),
the raw response body is empty before `ResponseBody` and strictly below its
declared length during a framed `ResponseBody`, and `is_sse` can only be set
in `ResponseBody`. -/
def wfTx (tx : HttpTransaction) : Bool :=
  decide (tx.req_body.length ≤ tx.expected_req_len) &&
  (decide (tx.state ≠ TransactionState.RequestBody) ||
    decide (tx.req_body.length < tx.expected_req_len)) &&
  (decide (tx.state = TransactionState.ResponseBody) || decide (tx.res_body_raw = [])) &&
  (decide (tx.state ≠ TransactionState.ResponseBody) || tx.is_sse ||
    decide (tx.res_body_raw.length < tx.expected_res_len)) &&
  (decide (tx.state = TransactionState.ResponseBody) || !tx.is_sse)

/-- Executable well-formedness of a stream buffer: its in-progress
transaction, if any, is well formed. -/
def wf (sb : StreamBuffer) : Bool :=
  match sb.current_tx with
  | none => true
  | some tx => wfTx tx

/-- The in-progress transaction, if any, is not an SSE one. -/
def sseFree (sb : StreamBuffer) : Bool :=
  match sb.current_tx with
  | none => true
  | some tx => !tx.is_sse

/-- Modelled from the spec: "Only the first occurrence of a given header is
materially used for Content-Length" — the claimed first-occurrence
extraction, for comparison with the code's `contentLenOf`. -/
def contentLenFirst (hs : List HeaderKV) : Nat :=
  ((hs.find? (fun kv => decide (lowerB kv.name = chrs ("content-length")))).map
    (fun kv => (parseUsize kv.value).getD 0)).getD 0

/-- Last-occurrence Content-Length extraction: the value of the last
Content-Length header (unparseable values counting as 0), or 0 if none. -/
def contentLenLast (hs : List HeaderKV) : Nat :=
  (((hs.filter (fun kv => decide (lowerB kv.name = chrs ("content-length")))).getLast?).map
    (fun kv => (parseUsize kv.value).getD 0)).getD 0

/-- Appending a suffix to the buffer, as helper for the chunking analysis. -/
def appendData (sb : StreamBuffer) (m : Bytes) : StreamBuffer :=
  { data := sb.data ++ m, current_tx := sb.current_tx }

def seqRuns (sb : StreamBuffer) (m : Bytes) : StreamBuffer × List HttpTransaction :=
  ((processStream (appendData (processStream sb).1 m)).1,
    (processStream sb).2 ++ (processStream (appendData (processStream sb).1 m)).2)

/-- Safety check of one loop iteration: the bytes to drain stay within the
buffer and the two `usize` subtractions of `process_stream`
(`expected_req_len - req_body.len()` at src/main.rs:267 and
`expected_res_len - res_body_raw.len()` at src/main.rs:321) have
non-negative differences, so they cannot underflow. -/
def stepSafeNow (sb : StreamBuffer) : Bool :=
  decide ((processStep sb).2.2 ≤ sb.data.length) &&
  (match sb.current_tx with
   | none => true
   | some tx =>
     match tx.state with
     | TransactionState.RequestBody => decide (tx.req_body.length ≤ tx.expected_req_len)
     | TransactionState.ResponseHeader => true
     | TransactionState.ResponseBody =>
       tx.is_sse || decide (tx.res_body_raw.length ≤ tx.expected_res_len))

/-- Safety of a whole `process_stream` run: every iteration of the loop
passes `stepSafeNow`. -/
def runSafeAux : Nat → StreamBuffer → Bool
  | 0, _ => true
  | f + 1, sb =>
    stepSafeNow sb &&
    (match processStep sb with
     | (sb1, _, c) => if 0 < c then runSafeAux f { sb1 with data := sb1.data.drop c } else true)

/-- Finding the first CRLF is stable under appending bytes. -/
theorem findCRLF_append {m : Bytes} :
    ∀ {d : Bytes} {i : Nat}, findCRLF d = some i → findCRLF (d ++ m) = some i := by
  intro d
  induction d with
  | nil => intro i h; simp [findCRLF] at h
  | cons a d ih =>
    intro i h
    cases d with
    | nil => simp [findCRLF] at h
    | cons b rest =>
      rw [findCRLF] at h
      by_cases hab : (a == 13 && b == 10) = true
      · rw [if_pos hab] at h
        cases h
        show findCRLF (a :: b :: (rest ++ m)) = some 0
        rw [findCRLF, if_pos hab]
      · rw [if_neg hab] at h
        cases hj : findCRLF (b :: rest) with
        | none => rw [hj] at h; simp at h
        | some j =>
          rw [hj] at h
          simp at h
          have h2 := ih hj
          show findCRLF (a :: b :: (rest ++ m)) = some i
          rw [findCRLF, if_neg hab]
          rw [show b :: (rest ++ m) = (b :: rest) ++ m from rfl, h2]
          simpa using h

/-- The CRLF found by `findCRLF` lies fully inside the buffer. -/
theorem findCRLF_bound :
    ∀ {d : Bytes} {i : Nat}, findCRLF d = some i → i + 2 ≤ d.length := by
  intro d
  induction d with
  | nil => intro i h; simp [findCRLF] at h
  | cons a d ih =>
    intro i h
    cases d with
    | nil => simp [findCRLF] at h
    | cons b rest =>
      rw [findCRLF] at h
      by_cases hab : (a == 13 && b == 10) = true
      · rw [if_pos hab] at h; cases h; simp
      · rw [if_neg hab] at h
        cases hj : findCRLF (b :: rest) with
        | none => rw [hj] at h; simp at h
        | some j =>
          rw [hj] at h
          simp at h
          have h2 := ih hj
          simp only [List.length_cons] at h2 ⊢
          omega

/-- A two-byte prefix test only looks at the first two bytes, so appending
to a buffer of length at least two cannot change it. -/
theorem isPrefixOf_crlf_append {d m : Bytes} (h : 2 ≤ d.length) :
    ([13, 10] : Bytes).isPrefixOf (d ++ m) = ([13, 10] : Bytes).isPrefixOf d := by
  match d with
  | [] => simp at h
  | [_] => simp at h
  | a :: b :: rest => simp [List.isPrefixOf, List.cons_append]


/-- The fuel argument of `parseHeadersAux` is irrelevant once it exceeds the
buffer length. -/
theorem parseHeadersAux_fuel :
    ∀ {f g slots : Nat} {d : Bytes}, d.length < f → d.length < g →
      parseHeadersAux f slots d = parseHeadersAux g slots d := by
  intro f
  induction f with
  | zero => intro g slots d hf; omega
  | succ f ih =>
    intro g slots d hf hg
    match g, hg with
    | g + 1, hg =>
      rw [parseHeadersAux, parseHeadersAux]
      by_cases hpre : (([13, 10] : Bytes).isPrefixOf d) = true
      · rw [if_pos hpre, if_pos hpre]
      · rw [if_neg hpre, if_neg hpre]
        cases hCR : findCRLF d with
        | none => rfl
        | some i =>
          simp only
          by_cases hs : slots = 0
          · rw [if_pos hs, if_pos hs]
          · rw [if_neg hs, if_neg hs]
            cases parseHeaderLine (d.take i) with
            | none => rfl
            | some kv =>
              simp only
              have hb := findCRLF_bound hCR
              have hlen : (d.drop (i + 2)).length < f := by
                simp only [List.length_drop]; omega
              have hlen2 : (d.drop (i + 2)).length < g := by
                simp only [List.length_drop]; omega
              rw [ih hlen hlen2]

/-- A complete header block is at least four bytes shorter than no buffer and
fits inside the buffer it was parsed from. -/
theorem parseHeadersAux_amt :
    ∀ {f slots : Nat} {d : Bytes} {n : Nat} {hs : List HeaderKV},
      parseHeadersAux f slots d = .complete n hs → 2 ≤ n ∧ n ≤ d.length := by
  intro f
  induction f with
  | zero => intro slots d n hs h; simp [parseHeadersAux] at h
  | succ f ih =>
    intro slots d n hs h
    rw [parseHeadersAux] at h
    by_cases hpre : (([13, 10] : Bytes).isPrefixOf d) = true
    · rw [if_pos hpre] at h
      cases h
      have hp : ([13, 10] : Bytes) <+: d := by
        rw [← List.isPrefixOf_iff_prefix]; exact hpre
      have := hp.length_le
      simp at this
      omega
    · rw [if_neg hpre] at h
      cases hCR : findCRLF d with
      | none => rw [hCR] at h; simp at h
      | some i =>
        rw [hCR] at h
        simp only at h
        by_cases hs0 : slots = 0
        · rw [if_pos hs0] at h; simp at h
        · rw [if_neg hs0] at h
          cases hline : parseHeaderLine (d.take i) with
          | none => rw [hline] at h; simp at h
          | some kv =>
            rw [hline] at h
            simp only at h
            cases hrec : parseHeadersAux f (slots - 1) (d.drop (i + 2)) with
            | complete n2 hs2 =>
              rw [hrec] at h
              cases h
              have hb := findCRLF_bound hCR
              have h2 := (ih hrec).2
              simp only [List.length_drop] at h2
              omega
            | incomplete => rw [hrec] at h; simp at h
            | invalid => rw [hrec] at h; simp at h

/-- Completed header-block parses are stable under appending bytes
(at a common fuel). -/
theorem parseHeadersAux_append_complete :
    ∀ {f slots : Nat} {d : Bytes} {n : Nat} {hs : List HeaderKV} (m : Bytes),
      parseHeadersAux f slots d = .complete n hs →
      parseHeadersAux f slots (d ++ m) = .complete n hs := by
  intro f
  induction f with
  | zero => intro slots d n hs m h; simp [parseHeadersAux] at h
  | succ f ih =>
    intro slots d n hs m h
    rw [parseHeadersAux] at h
    rw [parseHeadersAux]
    by_cases hpre : (([13, 10] : Bytes).isPrefixOf d) = true
    · rw [if_pos hpre] at h
      have hlen : 2 ≤ d.length := by
        have hp : ([13, 10] : Bytes) <+: d := by
          rw [← List.isPrefixOf_iff_prefix]; exact hpre
        have := hp.length_le; simpa using this
      rw [isPrefixOf_crlf_append hlen, if_pos hpre]
      exact h
    · rw [if_neg hpre] at h
      cases hCR : findCRLF d with
      | none => rw [hCR] at h; simp at h
      | some i =>
        rw [hCR] at h
        simp only at h
        have hb := findCRLF_bound hCR
        rw [isPrefixOf_crlf_append (by omega), if_neg hpre, findCRLF_append hCR]
        simp only
        by_cases hs0 : slots = 0
        · rw [if_pos hs0] at h; simp at h
        · rw [if_neg hs0] at h
          rw [if_neg hs0]
          rw [List.take_append_of_le_length (by omega)]
          cases hline : parseHeaderLine (d.take i) with
          | none => rw [hline] at h; simp at h
          | some kv =>
            rw [hline] at h
            simp only at h ⊢
            rw [List.drop_append_of_le_length (by omega)]
            cases hrec : parseHeadersAux f (slots - 1) (d.drop (i + 2)) with
            | complete n2 hs2 =>
              rw [hrec] at h
              rw [ih m hrec]
              exact h
            | incomplete => rw [hrec] at h; simp at h
            | invalid => rw [hrec] at h; simp at h

/-- Invalid header-block parses are stable under appending bytes
(at a common fuel). -/
theorem parseHeadersAux_append_invalid :
    ∀ {f slots : Nat} {d : Bytes} (m : Bytes),
      parseHeadersAux f slots d = .invalid →
      parseHeadersAux f slots (d ++ m) = .invalid := by
  intro f
  induction f with
  | zero => intro slots d m h; simp [parseHeadersAux] at h
  | succ f ih =>
    intro slots d m h
    rw [parseHeadersAux] at h
    rw [parseHeadersAux]
    by_cases hpre : (([13, 10] : Bytes).isPrefixOf d) = true
    · rw [if_pos hpre] at h; simp at h
    · rw [if_neg hpre] at h
      cases hCR : findCRLF d with
      | none => rw [hCR] at h; simp at h
      | some i =>
        rw [hCR] at h
        simp only at h
        have hb := findCRLF_bound hCR
        rw [isPrefixOf_crlf_append (by omega), if_neg hpre, findCRLF_append hCR]
        simp only
        by_cases hs0 : slots = 0
        · rw [if_pos hs0]
        · rw [if_neg hs0] at h
          rw [if_neg hs0]
          rw [List.take_append_of_le_length (by omega)]
          cases hline : parseHeaderLine (d.take i) with
          | none => rfl
          | some kv =>
            rw [hline] at h
            simp only at h ⊢
            rw [List.drop_append_of_le_length (by omega)]
            cases hrec : parseHeadersAux f (slots - 1) (d.drop (i + 2)) with
            | complete n2 hs2 => rw [hrec] at h; simp at h
            | incomplete => rw [hrec] at h; simp at h
            | invalid => rw [ih m hrec]

/-- A completed request-head parse consumes between 1 byte and the whole
buffer. -/
theorem parseRequest_amt {d : Bytes} {amt : Nat} {r : ReqParsed}
    (h : parseRequest d = .complete amt r) : 1 ≤ amt ∧ amt ≤ d.length := by
  rw [parseRequest] at h
  cases hCR : findCRLF d with
  | none => rw [hCR] at h; simp at h
  | some i =>
    rw [hCR] at h
    simp only at h
    cases hline : parseRequestLine (d.take i) with
    | none => rw [hline] at h; simp at h
    | some mp =>
      rw [hline] at h
      simp only at h
      cases hrec : parseHeadersAux (d.length + 1) 64 (d.drop (i + 2)) with
      | complete n hs =>
        rw [hrec] at h
        cases h
        have hb := findCRLF_bound hCR
        have h2 := (parseHeadersAux_amt hrec).2
        simp only [List.length_drop] at h2
        omega
      | incomplete => rw [hrec] at h; simp at h
      | invalid => rw [hrec] at h; simp at h

/-- Completed request-head parses are stable under appending bytes. -/
theorem parseRequest_append_complete {d : Bytes} {amt : Nat} {r : ReqParsed} (m : Bytes)
    (h : parseRequest d = .complete amt r) : parseRequest (d ++ m) = .complete amt r := by
  rw [parseRequest] at h
  rw [parseRequest]
  cases hCR : findCRLF d with
  | none => rw [hCR] at h; simp at h
  | some i =>
    rw [hCR] at h
    simp only at h
    have hb := findCRLF_bound hCR
    rw [findCRLF_append hCR]
    simp only
    rw [List.take_append_of_le_length (by omega)]
    cases hline : parseRequestLine (d.take i) with
    | none => rw [hline] at h; simp at h
    | some mp =>
      rw [hline] at h
      simp only at h ⊢
      rw [List.drop_append_of_le_length (by omega)]
      cases hrec : parseHeadersAux (d.length + 1) 64 (d.drop (i + 2)) with
      | complete n hs =>
        rw [hrec] at h
        have hF : parseHeadersAux ((d ++ m).length + 1) 64 (d.drop (i + 2)) = .complete n hs := by
          rw [parseHeadersAux_fuel (g := d.length + 1) (by simp [List.length_append]; omega)
            (by simp; omega)]
          exact hrec
        rw [parseHeadersAux_append_complete m hF]
        exact h
      | incomplete => rw [hrec] at h; simp at h
      | invalid => rw [hrec] at h; simp at h

/-- Invalid request-head parses are stable under appending bytes. -/
theorem parseRequest_append_invalid {d : Bytes} (m : Bytes)
    (h : parseRequest d = .invalid) : parseRequest (d ++ m) = .invalid := by
  rw [parseRequest] at h
  rw [parseRequest]
  cases hCR : findCRLF d with
  | none => rw [hCR] at h; simp at h
  | some i =>
    rw [hCR] at h
    simp only at h
    have hb := findCRLF_bound hCR
    rw [findCRLF_append hCR]
    simp only
    rw [List.take_append_of_le_length (by omega)]
    cases hline : parseRequestLine (d.take i) with
    | none => rfl
    | some mp =>
      rw [hline] at h
      simp only at h ⊢
      rw [List.drop_append_of_le_length (by omega)]
      cases hrec : parseHeadersAux (d.length + 1) 64 (d.drop (i + 2)) with
      | complete n hs => rw [hrec] at h; simp at h
      | incomplete => rw [hrec] at h; simp at h
      | invalid =>
        have hF : parseHeadersAux ((d ++ m).length + 1) 64 (d.drop (i + 2)) = .invalid := by
          rw [parseHeadersAux_fuel (g := d.length + 1) (by simp [List.length_append]; omega)
            (by simp; omega)]
          exact hrec
        rw [parseHeadersAux_append_invalid m hF]

/-- A completed response-head parse consumes between 1 byte and the whole
buffer. -/
theorem parseResponse_amt {d : Bytes} {amt : Nat} {r : ResParsed}
    (h : parseResponse d = .complete amt r) : 1 ≤ amt ∧ amt ≤ d.length := by
  rw [parseResponse] at h
  cases hCR : findCRLF d with
  | none => rw [hCR] at h; simp at h
  | some i =>
    rw [hCR] at h
    simp only at h
    cases hline : parseResponseLine (d.take i) with
    | none => rw [hline] at h; simp at h
    | some cr =>
      rw [hline] at h
      simp only at h
      cases hrec : parseHeadersAux (d.length + 1) 64 (d.drop (i + 2)) with
      | complete n hs =>
        rw [hrec] at h
        cases h
        have hb := findCRLF_bound hCR
        have h2 := (parseHeadersAux_amt hrec).2
        simp only [List.length_drop] at h2
        omega
      | incomplete => rw [hrec] at h; simp at h
      | invalid => rw [hrec] at h; simp at h

/-- Completed response-head parses are stable under appending bytes. -/
theorem parseResponse_append_complete {d : Bytes} {amt : Nat} {r : ResParsed} (m : Bytes)
    (h : parseResponse d = .complete amt r) : parseResponse (d ++ m) = .complete amt r := by
  rw [parseResponse] at h
  rw [parseResponse]
  cases hCR : findCRLF d with
  | none => rw [hCR] at h; simp at h
  | some i =>
    rw [hCR] at h
    simp only at h
    have hb := findCRLF_bound hCR
    rw [findCRLF_append hCR]
    simp only
    rw [List.take_append_of_le_length (by omega)]
    cases hline : parseResponseLine (d.take i) with
    | none => rw [hline] at h; simp at h
    | some cr =>
      rw [hline] at h
      simp only at h ⊢
      rw [List.drop_append_of_le_length (by omega)]
      cases hrec : parseHeadersAux (d.length + 1) 64 (d.drop (i + 2)) with
      | complete n hs =>
        rw [hrec] at h
        have hF : parseHeadersAux ((d ++ m).length + 1) 64 (d.drop (i + 2)) = .complete n hs := by
          rw [parseHeadersAux_fuel (g := d.length + 1) (by simp [List.length_append]; omega)
            (by simp; omega)]
          exact hrec
        rw [parseHeadersAux_append_complete m hF]
        exact h
      | incomplete => rw [hrec] at h; simp at h
      | invalid => rw [hrec] at h; simp at h

/-- Trimming SP/HT yields a contiguous substring of the input. -/
theorem trimValue_infx (v : Bytes) : trimValue v <:+: v := by
  unfold trimValue
  have h1 : v.dropWhile isSpHt <:+ v := List.dropWhile_suffix isSpHt
  have h2 : (v.dropWhile isSpHt).reverse.dropWhile isSpHt <:+
      (v.dropWhile isSpHt).reverse := List.dropWhile_suffix isSpHt
  have h3 : ((v.dropWhile isSpHt).reverse.dropWhile isSpHt).reverse <+:
      v.dropWhile isSpHt := by
    rw [← List.reverse_suffix]
    simpa using h2
  exact h3.isInfix.trans h1.isInfix

/-- The value of a parsed header line is a contiguous substring of the line. -/
theorem parseHeaderLine_value_infx {line : Bytes} {kv : HeaderKV}
    (h : parseHeaderLine line = some kv) : kv.value <:+: line := by
  rw [parseHeaderLine] at h
  cases hidx : line.findIdx? (fun c => c == 58) with
  | none => rw [hidx] at h; simp at h
  | some i =>
    rw [hidx] at h
    simp only at h
    split at h
    · cases h
      exact (trimValue_infx _).trans (List.drop_suffix _ _).isInfix
    · simp at h

/-- Every header value produced by a completed header-block parse is a
contiguous substring of the parsed buffer. -/
theorem parseHeadersAux_values_infx :
    ∀ {f slots : Nat} {d : Bytes} {n : Nat} {hs : List HeaderKV},
      parseHeadersAux f slots d = .complete n hs →
      ∀ kv ∈ hs, kv.value <:+: d := by
  intro f
  induction f with
  | zero => intro slots d n hs h; simp [parseHeadersAux] at h
  | succ f ih =>
    intro slots d n hs h
    rw [parseHeadersAux] at h
    by_cases hpre : (([13, 10] : Bytes).isPrefixOf d) = true
    · rw [if_pos hpre] at h
      cases h
      intro kv hkv
      simp at hkv
    · rw [if_neg hpre] at h
      cases hCR : findCRLF d with
      | none => rw [hCR] at h; simp at h
      | some i =>
        rw [hCR] at h
        simp only at h
        by_cases hs0 : slots = 0
        · rw [if_pos hs0] at h; simp at h
        · rw [if_neg hs0] at h
          cases hline : parseHeaderLine (d.take i) with
          | none => rw [hline] at h; simp at h
          | some kv0 =>
            rw [hline] at h
            simp only at h
            cases hrec : parseHeadersAux f (slots - 1) (d.drop (i + 2)) with
            | complete n2 hs2 =>
              rw [hrec] at h
              cases h
              intro kv hkv
              cases hkv with
              | head =>
                exact (parseHeaderLine_value_infx hline).trans
                  (List.take_prefix _ _).isInfix
              | tail _ htail =>
                exact (ih hrec kv htail).trans (List.drop_suffix _ _).isInfix
            | incomplete => rw [hrec] at h; simp at h
            | invalid => rw [hrec] at h; simp at h

/-- Every header value of a completed response-head parse is a contiguous
substring of the parsed buffer. -/
theorem parseResponse_values_infx {d : Bytes} {amt : Nat} {r : ResParsed}
    (h : parseResponse d = .complete amt r) : ∀ kv ∈ r.headers, kv.value <:+: d := by
  rw [parseResponse] at h
  cases hCR : findCRLF d with
  | none => rw [hCR] at h; simp at h
  | some i =>
    rw [hCR] at h
    simp only at h
    cases hline : parseResponseLine (d.take i) with
    | none => rw [hline] at h; simp at h
    | some cr =>
      rw [hline] at h
      simp only at h
      cases hrec : parseHeadersAux (d.length + 1) 64 (d.drop (i + 2)) with
      | complete n hs =>
        rw [hrec] at h
        cases h
        intro kv hkv
        exact (parseHeadersAux_values_infx hrec kv hkv).trans
          (List.drop_suffix _ _).isInfix
      | incomplete => rw [hrec] at h; simp at h
      | invalid => rw [hrec] at h; simp at h

/-- The substring test agrees with the infix relation. -/
theorem containsSub_iff (pat : Bytes) :
    ∀ (s : Bytes), containsSub pat s = true ↔ pat <:+: s := by
  intro s
  induction s with
  | nil =>
    simp [containsSub, List.isEmpty_iff]
  | cons c rest ih =>
    rw [containsSub]
    rw [List.infix_cons_iff]
    simp only [Bool.or_eq_true, List.isPrefixOf_iff_prefix]
    rw [ih]

/-- A buffer free of the pattern has no contiguous substring containing it. -/
theorem containsSub_mono {pat big v : Bytes}
    (hbig : containsSub pat big = false) (hinf : v <:+: big) :
    containsSub pat v = false := by
  by_contra hc
  have hv : containsSub pat v = true := by
    cases h : containsSub pat v
    · exact absurd h hc
    · rfl
  rw [containsSub_iff] at hv
  have : containsSub pat big = true := by
    rw [containsSub_iff]; exact hv.trans hinf
  rw [this] at hbig
  simp at hbig

/-- If no header value contains the SSE pattern, the `is_sse` fold stays
false. -/
theorem sseFold_false {hs : List HeaderKV}
    (h : ∀ kv ∈ hs, containsSub ssePat kv.value = false) :
    sseFold false hs = false := by
  induction hs with
  | nil => rfl
  | cons kv rest ih =>
    rw [sseFold]
    rw [sseFold] at ih
    simp only [List.foldl_cons]
    have hkv := h kv (by simp)
    have hcond : ¬(lowerB kv.name = chrs ("content-type") ∧ containsSub ssePat kv.value) := by
      intro hc
      rw [hkv] at hc
      exact Bool.false_ne_true hc.2
    rw [if_neg hcond]
    exact ih (fun kv2 h2 => h kv2 (by simp [h2]))


/-- One loop iteration never consumes more bytes than the buffer holds
(so the drain `data.drain(..consumed)` is always in bounds). -/
theorem processStep_consumed_le (sb : StreamBuffer) :
    (processStep sb).2.2 ≤ sb.data.length := by
  obtain ⟨d, otx⟩ := sb
  cases otx with
  | none =>
    simp only [processStep]
    cases h : parseRequest d with
    | complete amt r => exact (parseRequest_amt h).2
    | incomplete => simp
    | invalid => simp
  | some tx =>
    obtain ⟨rh, rb, erl, sh, srb, sev, esl, sse, st, rp⟩ := tx
    cases st with
    | RequestBody =>
      simp only [processStep]
      exact Nat.min_le_right _ _
    | ResponseHeader =>
      simp only [processStep]
      cases h : parseResponse d with
      | complete amt r =>
        simp only
        split
        · exact (parseResponse_amt h).2
        · exact (parseResponse_amt h).2
      | incomplete => simp
      | invalid => simp
    | ResponseBody =>
      simp only [processStep]
      split
      · exact Nat.le_refl _
      · split
        · exact Nat.min_le_right _ _
        · exact Nat.min_le_right _ _

/-- One loop iteration mutates only the transaction, never the data field
(the drain happens in the loop, after the step). -/
theorem processStep_data_eq (sb : StreamBuffer) :
    (processStep sb).1.data = sb.data := by
  obtain ⟨d, otx⟩ := sb
  cases otx with
  | none =>
    simp only [processStep]
    cases h : parseRequest d with
    | complete amt r => rfl
    | incomplete => rfl
    | invalid => rfl
  | some tx =>
    obtain ⟨rh, rb, erl, sh, srb, sev, esl, sse, st, rp⟩ := tx
    cases st with
    | RequestBody => rfl
    | ResponseHeader =>
      simp only [processStep]
      cases h : parseResponse d with
      | complete amt r =>
        simp only
        split
        · rfl
        · rfl
      | incomplete => rfl
      | invalid => rfl
    | ResponseBody =>
      simp only [processStep]
      split
      · rfl
      · split
        · rfl
        · rfl


/-- Unpacking of the executable transaction invariant. -/
theorem wfTx_iff {tx : HttpTransaction} : wfTx tx = true ↔
    (tx.req_body.length ≤ tx.expected_req_len) ∧
    (tx.state = TransactionState.RequestBody →
      tx.req_body.length < tx.expected_req_len) ∧
    (tx.state ≠ TransactionState.ResponseBody → tx.res_body_raw = []) ∧
    (tx.state = TransactionState.ResponseBody → tx.is_sse = false →
      tx.res_body_raw.length < tx.expected_res_len) ∧
    (tx.state ≠ TransactionState.ResponseBody → tx.is_sse = false) := by
  obtain ⟨rh, rb, erl, sh, srb, sev, esl, sse, st, rp⟩ := tx
  cases sse <;> cases st <;> simp [wfTx] <;> tauto

/-- One loop iteration preserves the transaction invariant. -/
theorem processStep_wf {sb : StreamBuffer} (hwf : wf sb = true) :
    wf (processStep sb).1 = true := by
  obtain ⟨d, otx⟩ := sb
  cases otx with
  | none =>
    simp only [processStep]
    cases h : parseRequest d with
    | complete amt r =>
      show wfTx _ = true
      rw [wfTx_iff]
      simp only
      refine ⟨by simp, ?_, by simp, ?_, by simp⟩
      · intro hst
        split at hst
        · rename_i hcl
          simpa using hcl
        · simp at hst
      · intro hst
        split at hst <;> simp at hst
    | incomplete => exact hwf
    | invalid => exact hwf
  | some tx =>
    obtain ⟨rh, rb, erl, sh, srb, sev, esl, sse, st, rp⟩ := tx
    simp only [wf] at hwf
    rw [wfTx_iff] at hwf
    simp only at hwf
    obtain ⟨hA, hB, hC, hD, hE⟩ := hwf
    cases st with
    | RequestBody =>
      simp only [processStep]
      show wfTx _ = true
      rw [wfTx_iff]
      simp only
      have hB' := hB rfl
      have hC' := hC (by simp)
      have hE' := hE (by simp)
      refine ⟨?_, ?_, ?_, ?_, ?_⟩
      · simp only [List.length_append, List.length_take]
        omega
      · intro hst
        split at hst
        · simp at hst
        · simp only [List.length_append, List.length_take] at *
          omega
      · intro _
        exact hC'
      · intro hst
        split at hst <;> simp at hst
      · intro _
        exact hE'
    | ResponseHeader =>
      simp only [processStep]
      cases h : parseResponse d with
      | complete amt r =>
        simp only
        have hC' := hC (by simp)
        have hE' := hE (by simp)
        split
        · rfl
        · rename_i hcond
          show wfTx _ = true
          rw [wfTx_iff]
          simp only
          refine ⟨hA, by simp, by simp, ?_, by simp⟩
          intro _ hsse
          rw [hC']
          simp only [List.length_nil]
          rcases Decidable.not_and_iff_or_not.mp hcond with hc | hc
          · exact absurd hsse hc
          · omega
      | incomplete =>
        show wfTx _ = true
        rw [wfTx_iff]
        exact ⟨hA, hB, hC, hD, hE⟩
      | invalid =>
        show wfTx _ = true
        rw [wfTx_iff]
        exact ⟨hA, hB, hC, hD, hE⟩
    | ResponseBody =>
      simp only [processStep]
      split
      · rename_i hsse
        show wfTx _ = true
        rw [wfTx_iff]
        simp only
        exact ⟨hA, by simp, by simp, fun _ hs2 => absurd hs2 (by rw [hsse]; simp), by simp⟩
      · split
        · rfl
        · rename_i hsse hlt
          show wfTx _ = true
          rw [wfTx_iff]
          simp only
          refine ⟨hA, by simp, by simp, ?_, by simp⟩
          intro _ hs2
          simp only [List.length_append, List.length_take] at hlt ⊢
          omega

/-- With the invariant, an iteration that consumes nothing changes nothing
and emits nothing: the loop genuinely stops at such an iteration. -/
theorem processStep_zero_id {sb : StreamBuffer} (hwf : wf sb = true)
    (hzero : (processStep sb).2.2 = 0) : processStep sb = (sb, [], 0) := by
  obtain ⟨d, otx⟩ := sb
  cases otx with
  | none =>
    simp only [processStep] at hzero ⊢
    cases h : parseRequest d with
    | complete amt r =>
      rw [h] at hzero
      simp only at hzero
      have := (parseRequest_amt h).1
      omega
    | incomplete => rfl
    | invalid => rfl
  | some tx =>
    obtain ⟨rh, rb, erl, sh, srb, sev, esl, sse, st, rp⟩ := tx
    simp only [wf] at hwf
    rw [wfTx_iff] at hwf
    simp only at hwf
    obtain ⟨hA, hB, hC, hD, hE⟩ := hwf
    cases st with
    | RequestBody =>
      have hB' := hB rfl
      simp only [processStep] at hzero ⊢
      have hd : d.length = 0 := by omega
      have hdnil : d = [] := List.length_eq_zero.mp hd
      subst hdnil
      simp only [List.take_nil, List.append_nil, List.length_nil, Nat.min_zero]
      rw [if_neg (by omega)]
    | ResponseHeader =>
      simp only [processStep] at hzero ⊢
      cases h : parseResponse d with
      | complete amt r =>
        rw [h] at hzero
        simp only at hzero
        have := (parseResponse_amt h).1
        split at hzero <;> simp at hzero <;> omega
      | incomplete => rfl
      | invalid => rfl
    | ResponseBody =>
      by_cases hsse : sse = true
      · simp only [processStep, hsse, if_pos rfl] at hzero ⊢
        have hdnil : d = [] := List.length_eq_zero.mp hzero
        subst hdnil
        simp [splitNN, trimEvent]
      · have hsse' : sse = false := by
          cases sse
          · rfl
          · exact absurd rfl hsse
        have hD' := hD rfl hsse'
        simp only [processStep, hsse', if_neg (by simp : ¬(false = true))] at hzero ⊢
        have htk : min (esl - List.length srb) d.length = 0 := by
          split at hzero
          · exact hzero
          · exact hzero
        have hd : d.length = 0 := by omega
        have hdnil : d = [] := List.length_eq_zero.mp hd
        subst hdnil
        simp only [List.take_nil, List.append_nil, List.length_nil, Nat.min_zero]
        rw [if_neg (by omega)]

/-- One loop iteration keeps the in-progress transaction non-SSE as long as
the remaining bytes never contain the pattern "text/event-stream". -/
theorem processStep_sseFree {sb : StreamBuffer} (hwf : wf sb = true)
    (hfree : sseFree sb = true) (hclean : containsSub ssePat sb.data = false) :
    sseFree (processStep sb).1 = true := by
  obtain ⟨d, otx⟩ := sb
  cases otx with
  | none =>
    simp only [processStep]
    cases h : parseRequest d with
    | complete amt r => rfl
    | incomplete => exact hfree
    | invalid => exact hfree
  | some tx =>
    obtain ⟨rh, rb, erl, sh, srb, sev, esl, sse, st, rp⟩ := tx
    simp only [sseFree] at hfree
    simp only [Bool.not_eq_true'] at hfree
    cases st with
    | RequestBody =>
      simp only [processStep, sseFree]
      simp [hfree]
    | ResponseHeader =>
      simp only [processStep]
      cases h : parseResponse d with
      | complete amt r =>
        simp only
        have hvals : ∀ kv ∈ r.headers, containsSub ssePat kv.value = false := by
          intro kv hkv
          exact containsSub_mono hclean (parseResponse_values_infx h kv hkv)
        have hfold : sseFold sse r.headers = false := by
          rw [hfree]
          exact sseFold_false hvals
        split
        · rfl
        · simp only [sseFree, Bool.not_eq_true']
          exact hfold
      | incomplete =>
        simp only [sseFree, Bool.not_eq_true']
        simpa using hfree
      | invalid =>
        simp only [sseFree, Bool.not_eq_true']
        simpa using hfree
    | ResponseBody =>
      simp only [processStep, hfree, if_neg (by simp : ¬(false = true))]
      split
      · rfl
      · simp [sseFree]

/-- The fuel of the loop encoding is irrelevant once it exceeds the buffer
length: the loop reaches its fixed point within `data.length + 1` iterations
because every continuing iteration consumes at least one byte. -/
theorem processAux_fuel :
    ∀ {f g : Nat} {sb : StreamBuffer}, sb.data.length < f → sb.data.length < g →
      processAux f sb = processAux g sb := by
  intro f
  induction f with
  | zero => intro g sb hf; omega
  | succ f ih =>
    intro g sb hf hg
    match g, hg with
    | g + 1, hg =>
      rw [processAux, processAux]
      rcases hstep : processStep sb with ⟨sb1, es, c⟩
      simp only
      by_cases hc : 0 < c
      · rw [if_pos hc, if_pos hc]
        have hle := processStep_consumed_le sb
        have hdata := processStep_data_eq sb
        rw [hstep] at hle hdata
        simp only at hle hdata
        have hlen : ({ sb1 with data := sb1.data.drop c } : StreamBuffer).data.length < f := by
          simp only [List.length_drop, hdata]
          omega
        have hlen2 : ({ sb1 with data := sb1.data.drop c } : StreamBuffer).data.length < g := by
          simp only [List.length_drop, hdata]
          omega
        rw [ih hlen hlen2]
      · rw [if_neg hc, if_neg hc]

/-- Unfolding of `processStream` at a consuming iteration. -/
theorem processStream_cons {sb sb1 : StreamBuffer} {es : List HttpTransaction} {c : Nat}
    (hstep : processStep sb = (sb1, es, c)) (hc : 0 < c) :
    processStream sb =
      ((processStream { sb1 with data := sb1.data.drop c }).1,
        es ++ (processStream { sb1 with data := sb1.data.drop c }).2) := by
  have hle := processStep_consumed_le sb
  have hdata := processStep_data_eq sb
  rw [hstep] at hle hdata
  simp only at hle hdata
  unfold processStream
  rw [processAux]
  rw [hstep]
  simp only
  rw [if_pos hc]
  have hlen : ({ sb1 with data := sb1.data.drop c } : StreamBuffer).data.length <
      sb.data.length := by
    simp only [List.length_drop, hdata]
    omega
  rw [processAux_fuel (g := (sb1.data.drop c).length + 1) hlen (Nat.lt_succ_self _)]

/-- Unfolding of `processStream` at a stopping iteration. -/
theorem processStream_stop {sb sb1 : StreamBuffer} {es : List HttpTransaction}
    (hstep : processStep sb = (sb1, es, 0)) :
    processStream sb = (sb1, es) := by
  unfold processStream
  rw [processAux]
  rw [hstep]
  simp only
  rw [if_neg (by omega : ¬0 < 0)]

theorem processStream_wf_aux :
    ∀ (n : Nat) (sb : StreamBuffer), sb.data.length ≤ n → wf sb = true →
      wf (processStream sb).1 = true := by
  intro n
  induction n with
  | zero =>
    intro sb hlen hwf
    rcases hstep : processStep sb with ⟨sb1, es, c⟩
    have hle := processStep_consumed_le sb
    rw [hstep] at hle
    simp only at hle
    have hc : c = 0 := by omega
    subst hc
    rw [processStream_stop hstep]
    have := processStep_wf hwf
    rw [hstep] at this
    exact this
  | succ n ih =>
    intro sb hlen hwf
    rcases hstep : processStep sb with ⟨sb1, es, c⟩
    by_cases hc : 0 < c
    · rw [processStream_cons hstep hc]
      have hle := processStep_consumed_le sb
      have hdata := processStep_data_eq sb
      rw [hstep] at hle hdata
      simp only at hle hdata
      have hwf1 := processStep_wf hwf
      rw [hstep] at hwf1
      simp only at hwf1
      exact ih _ (by simp only [List.length_drop, hdata]; omega) hwf1
    · have hc0 : c = 0 := by omega
      subst hc0
      rw [processStream_stop hstep]
      have := processStep_wf hwf
      rw [hstep] at this
      exact this

/-- `process_stream` preserves the transaction invariant. -/
theorem processStream_wf {sb : StreamBuffer} (hwf : wf sb = true) :
    wf (processStream sb).1 = true :=
  processStream_wf_aux sb.data.length sb (Nat.le_refl _) hwf

theorem processStream_sseFree_aux :
    ∀ (n : Nat) (sb : StreamBuffer), sb.data.length ≤ n → wf sb = true →
      sseFree sb = true → containsSub ssePat sb.data = false →
      sseFree (processStream sb).1 = true := by
  intro n
  induction n with
  | zero =>
    intro sb hlen hwf hfree hclean
    rcases hstep : processStep sb with ⟨sb1, es, c⟩
    have hle := processStep_consumed_le sb
    rw [hstep] at hle
    simp only at hle
    have hc : c = 0 := by omega
    subst hc
    rw [processStream_stop hstep]
    have := processStep_sseFree hwf hfree hclean
    rw [hstep] at this
    exact this
  | succ n ih =>
    intro sb hlen hwf hfree hclean
    rcases hstep : processStep sb with ⟨sb1, es, c⟩
    by_cases hc : 0 < c
    · rw [processStream_cons hstep hc]
      have hle := processStep_consumed_le sb
      have hdata := processStep_data_eq sb
      rw [hstep] at hle hdata
      simp only at hle hdata
      have hwf1 := processStep_wf hwf
      have hfree1 := processStep_sseFree hwf hfree hclean
      rw [hstep] at hwf1 hfree1
      simp only at hwf1 hfree1
      refine ih _ (by simp only [List.length_drop, hdata]; omega) hwf1 hfree1 ?_
      have hsuf : (sb1.data.drop c) <:+: sb.data := by
        rw [hdata]
        exact (List.drop_suffix _ _).isInfix
      exact containsSub_mono hclean hsuf
    · have hc0 : c = 0 := by omega
      subst hc0
      rw [processStream_stop hstep]
      have := processStep_sseFree hwf hfree hclean
      rw [hstep] at this
      exact this

/-- `process_stream` keeps the transaction non-SSE over pattern-free data. -/
theorem processStream_sseFree {sb : StreamBuffer} (hwf : wf sb = true)
    (hfree : sseFree sb = true) (hclean : containsSub ssePat sb.data = false) :
    sseFree (processStream sb).1 = true :=
  processStream_sseFree_aux sb.data.length sb (Nat.le_refl _) hwf hfree hclean

theorem processStream_fix_aux :
    ∀ (n : Nat) (sb : StreamBuffer), sb.data.length ≤ n → wf sb = true →
      processStep (processStream sb).1 = ((processStream sb).1, [], 0) := by
  intro n
  induction n with
  | zero =>
    intro sb hlen hwf
    rcases hstep : processStep sb with ⟨sb1, es, c⟩
    have hle := processStep_consumed_le sb
    rw [hstep] at hle
    simp only at hle
    have hc : c = 0 := by omega
    subst hc
    have hid := processStep_zero_id hwf (by rw [hstep])
    rw [hstep] at hid
    injection hid with h1 h2
    injection h2 with h2 h3
    subst h1
    subst h2
    rw [processStream_stop hstep]
    show processStep sb1 = (sb1, [], 0)
    exact hstep
  | succ n ih =>
    intro sb hlen hwf
    rcases hstep : processStep sb with ⟨sb1, es, c⟩
    by_cases hc : 0 < c
    · rw [processStream_cons hstep hc]
      have hle := processStep_consumed_le sb
      have hdata := processStep_data_eq sb
      rw [hstep] at hle hdata
      simp only at hle hdata
      have hwf1 := processStep_wf hwf
      rw [hstep] at hwf1
      simp only at hwf1
      exact ih _ (by simp only [List.length_drop, hdata]; omega) hwf1
    · have hc0 : c = 0 := by omega
      subst hc0
      have hid := processStep_zero_id hwf (by rw [hstep])
      rw [hstep] at hid
      injection hid with h1 h2
      injection h2 with h2 h3
      subst h1
      subst h2
      rw [processStream_stop hstep]
      show processStep sb1 = (sb1, [], 0)
      exact hstep

/-- With the invariant, the state `process_stream` stops in is a genuine
fixed point: one more iteration would consume nothing, change nothing and
emit nothing. -/
theorem processStream_fix {sb : StreamBuffer} (hwf : wf sb = true) :
    processStep (processStream sb).1 = ((processStream sb).1, [], 0) :=
  processStream_fix_aux sb.data.length sb (Nat.le_refl _) hwf

theorem processStream_data_suffix_aux :
    ∀ (n : Nat) (sb : StreamBuffer), sb.data.length ≤ n →
      (processStream sb).1.data <:+ sb.data := by
  intro n
  induction n with
  | zero =>
    intro sb hlen
    rcases hstep : processStep sb with ⟨sb1, es, c⟩
    have hle := processStep_consumed_le sb
    have hdata := processStep_data_eq sb
    rw [hstep] at hle hdata
    simp only at hle hdata
    have hc : c = 0 := by omega
    subst hc
    rw [processStream_stop hstep]
    rw [hdata]
  | succ n ih =>
    intro sb hlen
    rcases hstep : processStep sb with ⟨sb1, es, c⟩
    by_cases hc : 0 < c
    · rw [processStream_cons hstep hc]
      have hle := processStep_consumed_le sb
      have hdata := processStep_data_eq sb
      rw [hstep] at hle hdata
      simp only at hle hdata
      simp only
      rw [hdata]
      have h1 := ih { data := sb.data.drop c, current_tx := sb1.current_tx }
        (by simp only [List.length_drop]; omega)
      exact List.IsSuffix.trans h1 (List.drop_suffix c sb.data)
    · have hc0 : c = 0 := by omega
      subst hc0
      rw [processStream_stop hstep]
      have hdata := processStep_data_eq sb
      rw [hstep] at hdata
      simp only at hdata
      rw [hdata]

/-- What remains in the buffer after `process_stream` is a suffix of what was
there before: consumption is strictly prefix-based. -/
theorem processStream_data_suffix (sb : StreamBuffer) :
    (processStream sb).1.data <:+ sb.data :=
  processStream_data_suffix_aux sb.data.length sb (Nat.le_refl _)

theorem processStream_append_lockstep
    {d m : Bytes} {otx ntx : Option HttpTransaction} {es : List HttpTransaction} {c : Nat}
    (hc : 0 < c) (hcle : c ≤ d.length)
    (hstep : processStep { data := d, current_tx := otx } =
      ({ data := d, current_tx := ntx }, es, c))
    (hstepm : processStep { data := d ++ m, current_tx := otx } =
      ({ data := d ++ m, current_tx := ntx }, es, c))
    (hrec : processStream (appendData { data := d.drop c, current_tx := ntx } m) =
      seqRuns { data := d.drop c, current_tx := ntx } m) :
    processStream (appendData { data := d, current_tx := otx } m) =
      seqRuns { data := d, current_tx := otx } m := by
  simp only [appendData, seqRuns] at hrec ⊢
  have hL := processStream_cons hstepm hc
  have hR := processStream_cons hstep hc
  simp only at hL hR
  rw [hL, hR]
  simp only
  rw [List.drop_append_of_le_length hcle]
  rw [hrec]
  simp [List.append_assoc]
theorem processStep_none_append {d : Bytes} (m : Bytes) {amt c : Nat} {r : ReqParsed}
    {sb1 : StreamBuffer} {es : List HttpTransaction}
    (h : parseRequest d = .complete amt r)
    (hstep : processStep { data := d, current_tx := none } = (sb1, es, c)) :
    processStep { data := d ++ m, current_tx := none } =
      ({ data := d ++ m, current_tx := sb1.current_tx }, es, c) := by
  simp only [processStep, h] at hstep
  cases hstep
  simp only [processStep, parseRequest_append_complete m h]
theorem processStep_resph_append {d : Bytes} (m : Bytes) {amt c : Nat} {r : ResParsed}
    {tx : HttpTransaction} {sb1 : StreamBuffer} {es : List HttpTransaction}
    (htx : tx.state = TransactionState.ResponseHeader)
    (h : parseResponse d = .complete amt r)
    (hstep : processStep { data := d, current_tx := some tx } = (sb1, es, c)) :
    processStep { data := d ++ m, current_tx := some tx } =
      ({ data := d ++ m, current_tx := sb1.current_tx }, es, c) := by
  simp only [processStep, htx, h] at hstep
  by_cases hcond : (sseFold tx.is_sse r.headers = false ∧ contentLenOf r.headers = 0)
  · rw [if_pos hcond] at hstep
    cases hstep
    simp only [processStep, htx, parseResponse_append_complete m h]
    rw [if_pos hcond]
  · rw [if_neg hcond] at hstep
    cases hstep
    simp only [processStep, htx, parseResponse_append_complete m h]
    rw [if_neg hcond]
theorem processStep_reqbody_full_append {d : Bytes} (m : Bytes) {c : Nat}
    {tx : HttpTransaction} {sb1 : StreamBuffer} {es : List HttpTransaction}
    (htx : tx.state = TransactionState.RequestBody)
    (hg : tx.expected_req_len - tx.req_body.length ≤ d.length)
    (hstep : processStep { data := d, current_tx := some tx } = (sb1, es, c)) :
    processStep { data := d ++ m, current_tx := some tx } =
      ({ data := d ++ m, current_tx := sb1.current_tx }, es, c) := by
  simp only [processStep, htx] at hstep
  cases hstep
  simp only [processStep, htx]
  rw [Nat.min_eq_left hg]
  rw [Nat.min_eq_left (le_trans hg (by simp))]
  rw [List.take_append_of_le_length hg]

theorem processStep_framed_full_append {d : Bytes} (m : Bytes) {c : Nat}
    {tx : HttpTransaction} {sb1 : StreamBuffer} {es : List HttpTransaction}
    (htx : tx.state = TransactionState.ResponseBody)
    (hsse : tx.is_sse = false)
    (hg : tx.expected_res_len - tx.res_body_raw.length ≤ d.length)
    (hstep : processStep { data := d, current_tx := some tx } = (sb1, es, c)) :
    processStep { data := d ++ m, current_tx := some tx } =
      ({ data := d ++ m, current_tx := sb1.current_tx }, es, c) := by
  have hmin1 : min (tx.expected_res_len - tx.res_body_raw.length) d.length =
      tx.expected_res_len - tx.res_body_raw.length := min_eq_left hg
  have hmin2 : min (tx.expected_res_len - tx.res_body_raw.length) (d ++ m).length =
      tx.expected_res_len - tx.res_body_raw.length := min_eq_left (le_trans hg (by simp))
  simp only [processStep, htx, hsse, if_neg (by simp : ¬(false = true)), hmin1] at hstep
  by_cases hcomp : (tx.res_body_raw ++
      d.take (tx.expected_res_len - tx.res_body_raw.length)).length ≥ tx.expected_res_len
  · rw [if_pos hcomp] at hstep
    cases hstep
    simp only [processStep, htx, hsse, if_neg (by simp : ¬(false = true)), hmin2,
      List.take_append_of_le_length hg]
    rw [if_pos hcomp]
  · rw [if_neg hcomp] at hstep
    cases hstep
    simp only [processStep, htx, hsse, if_neg (by simp : ¬(false = true)), hmin2,
      List.take_append_of_le_length hg]
    rw [if_neg hcomp]

/-- A request-body step that cannot be filled from the present buffer alone
commutes with appending more bytes: the chunked run stalls on empty data and
the combined run takes the same total in one step. -/
theorem processAppend_reqbody_partial
    {d m rh rb sh srb : Bytes} {erl esl : Nat} {sev : List Bytes} {rp : Bool}
    (hd : 0 < d.length) (hm : 0 < m.length)
    (hg : d.length < erl - rb.length) :
    processStream (appendData { data := d, current_tx := some ⟨rh, rb, erl, sh, srb, sev, esl, false, TransactionState.RequestBody, rp⟩ } m) =
    seqRuns { data := d, current_tx := some ⟨rh, rb, erl, sh, srb, sev, esl, false, TransactionState.RequestBody, rp⟩ } m := by
  have hstep : processStep { data := d, current_tx := some ⟨rh, rb, erl, sh, srb, sev, esl, false, TransactionState.RequestBody, rp⟩ } = ({ data := d, current_tx := some ⟨rh, rb ++ d, erl, sh, srb, sev, esl, false, TransactionState.RequestBody, rp⟩ }, [], d.length) := by
    simp only [processStep]
    rw [Nat.min_eq_right (Nat.le_of_lt hg), List.take_length]
    rw [if_neg (by simp only [List.length_append]; omega)]
  have hstop : processStep { data := ([] : Bytes), current_tx := some ⟨rh, rb ++ d, erl, sh, srb, sev, esl, false, TransactionState.RequestBody, rp⟩ } = ({ data := ([] : Bytes), current_tx := some ⟨rh, rb ++ d, erl, sh, srb, sev, esl, false, TransactionState.RequestBody, rp⟩ }, [], 0) := by
    simp only [processStep, List.length_nil, Nat.min_zero, List.take_nil, List.append_nil]
    rw [if_neg (by simp only [List.length_append]; omega)]
  have hchunk : processStream { data := d, current_tx := some ⟨rh, rb, erl, sh, srb, sev, esl, false, TransactionState.RequestBody, rp⟩ } = ({ data := ([] : Bytes), current_tx := some ⟨rh, rb ++ d, erl, sh, srb, sev, esl, false, TransactionState.RequestBody, rp⟩ }, []) := by
    rw [processStream_cons hstep hd]
    simp only [List.drop_length]
    rw [processStream_stop hstop]
    simp
  have hstep2 : processStep { data := m, current_tx := some ⟨rh, rb ++ d, erl, sh, srb, sev, esl, false, TransactionState.RequestBody, rp⟩ } = ({ data := m, current_tx := some ⟨rh, (rb ++ d) ++ m.take (min (erl - (rb ++ d).length) m.length), erl, sh, srb, sev, esl, false, if ((rb ++ d) ++ m.take (min (erl - (rb ++ d).length) m.length)).length ≥ erl then TransactionState.ResponseHeader else TransactionState.RequestBody, rp⟩ }, [], min (erl - (rb ++ d).length) m.length) := by
    simp only [processStep]
  have ht2 : 0 < min (erl - (rb ++ d).length) m.length := by
    simp only [List.length_append]
    omega
  have hcomb : processStep { data := d ++ m, current_tx := some ⟨rh, rb, erl, sh, srb, sev, esl, false, TransactionState.RequestBody, rp⟩ } = ({ data := d ++ m, current_tx := some ⟨rh, (rb ++ d) ++ m.take (min (erl - (rb ++ d).length) m.length), erl, sh, srb, sev, esl, false, if ((rb ++ d) ++ m.take (min (erl - (rb ++ d).length) m.length)).length ≥ erl then TransactionState.ResponseHeader else TransactionState.RequestBody, rp⟩ }, [], d.length + min (erl - (rb ++ d).length) m.length) := by
    simp only [processStep]
    have harith : min (erl - rb.length) (d ++ m).length = d.length + min (erl - (rb ++ d).length) m.length := by
      simp only [List.length_append]
      omega
    rw [harith, List.take_append, ← List.append_assoc]
  have hcombpos : 0 < d.length + min (erl - (rb ++ d).length) m.length := by omega
  rw [appendData]
  simp only
  rw [processStream_cons hcomb hcombpos]
  rw [seqRuns, hchunk]
  simp only [appendData, List.nil_append]
  rw [processStream_cons hstep2 ht2]
  simp only [List.nil_append]
  have hdrop : (d ++ m).drop (d.length + min (erl - (rb ++ d).length) m.length) = m.drop (min (erl - (rb ++ d).length) m.length) := List.drop_append _
  rw [hdrop]

/-- A framed response-body step that cannot be completed from the present
buffer alone commutes with appending more bytes. -/
theorem processAppend_framed_partial
    {d m rh rb sh srb : Bytes} {erl esl : Nat} {sev : List Bytes} {rp : Bool}
    (hd : 0 < d.length) (hm : 0 < m.length)
    (hg : d.length < esl - srb.length) :
    processStream (appendData { data := d, current_tx := some ⟨rh, rb, erl, sh, srb, sev, esl, false, TransactionState.ResponseBody, rp⟩ } m) =
    seqRuns { data := d, current_tx := some ⟨rh, rb, erl, sh, srb, sev, esl, false, TransactionState.ResponseBody, rp⟩ } m := by
  have hstep : processStep { data := d, current_tx := some ⟨rh, rb, erl, sh, srb, sev, esl, false, TransactionState.ResponseBody, rp⟩ } = ({ data := d, current_tx := some ⟨rh, rb, erl, sh, srb ++ d, sev, esl, false, TransactionState.ResponseBody, rp⟩ }, [], d.length) := by
    simp only [processStep, if_neg (by simp : ¬(false = true))]
    rw [Nat.min_eq_right (Nat.le_of_lt hg), List.take_length]
    rw [if_neg (by simp only [List.length_append]; omega)]
  have hstop : processStep { data := ([] : Bytes), current_tx := some ⟨rh, rb, erl, sh, srb ++ d, sev, esl, false, TransactionState.ResponseBody, rp⟩ } = ({ data := ([] : Bytes), current_tx := some ⟨rh, rb, erl, sh, srb ++ d, sev, esl, false, TransactionState.ResponseBody, rp⟩ }, [], 0) := by
    simp only [processStep, if_neg (by simp : ¬(false = true)), List.length_nil, Nat.min_zero,
      List.take_nil, List.append_nil]
    rw [if_neg (by simp only [List.length_append]; omega)]
  have hchunk : processStream { data := d, current_tx := some ⟨rh, rb, erl, sh, srb, sev, esl, false, TransactionState.ResponseBody, rp⟩ } = ({ data := ([] : Bytes), current_tx := some ⟨rh, rb, erl, sh, srb ++ d, sev, esl, false, TransactionState.ResponseBody, rp⟩ }, []) := by
    rw [processStream_cons hstep hd]
    simp only [List.drop_length]
    rw [processStream_stop hstop]
    simp
  have ht2 : 0 < min (esl - (srb ++ d).length) m.length := by
    simp only [List.length_append]
    omega
  have harith : min (esl - srb.length) (d ++ m).length = d.length + min (esl - (srb ++ d).length) m.length := by
    simp only [List.length_append]
    omega
  have hcombpos : 0 < d.length + min (esl - (srb ++ d).length) m.length := by omega
  have hdrop : (d ++ m).drop (d.length + min (esl - (srb ++ d).length) m.length) = m.drop (min (esl - (srb ++ d).length) m.length) := List.drop_append _
  by_cases hcomp : ((srb ++ d) ++ m.take (min (esl - (srb ++ d).length) m.length)).length ≥ esl
  · have hstep2 : processStep { data := m, current_tx := some ⟨rh, rb, erl, sh, srb ++ d, sev, esl, false, TransactionState.ResponseBody, rp⟩ } = ({ data := m, current_tx := none }, [⟨rh, rb, erl, sh, (srb ++ d) ++ m.take (min (esl - (srb ++ d).length) m.length), sev, esl, false, TransactionState.ResponseBody, rp⟩], min (esl - (srb ++ d).length) m.length) := by
      simp only [processStep, if_neg (by simp : ¬(false = true))]
      rw [if_pos hcomp]
    have hcomb : processStep { data := d ++ m, current_tx := some ⟨rh, rb, erl, sh, srb, sev, esl, false, TransactionState.ResponseBody, rp⟩ } = ({ data := d ++ m, current_tx := none }, [⟨rh, rb, erl, sh, (srb ++ d) ++ m.take (min (esl - (srb ++ d).length) m.length), sev, esl, false, TransactionState.ResponseBody, rp⟩], d.length + min (esl - (srb ++ d).length) m.length) := by
      simp only [processStep, if_neg (by simp : ¬(false = true))]
      rw [harith, List.take_append, ← List.append_assoc]
      rw [if_pos hcomp]
    rw [appendData]
    simp only
    rw [processStream_cons hcomb hcombpos]
    rw [seqRuns, hchunk]
    simp only [appendData, List.nil_append]
    rw [processStream_cons hstep2 ht2]
    simp only [List.nil_append]
    rw [hdrop]
  · have hstep2 : processStep { data := m, current_tx := some ⟨rh, rb, erl, sh, srb ++ d, sev, esl, false, TransactionState.ResponseBody, rp⟩ } = ({ data := m, current_tx := some ⟨rh, rb, erl, sh, (srb ++ d) ++ m.take (min (esl - (srb ++ d).length) m.length), sev, esl, false, TransactionState.ResponseBody, rp⟩ }, [], min (esl - (srb ++ d).length) m.length) := by
      simp only [processStep, if_neg (by simp : ¬(false = true))]
      rw [if_neg hcomp]
    have hcomb : processStep { data := d ++ m, current_tx := some ⟨rh, rb, erl, sh, srb, sev, esl, false, TransactionState.ResponseBody, rp⟩ } = ({ data := d ++ m, current_tx := some ⟨rh, rb, erl, sh, (srb ++ d) ++ m.take (min (esl - (srb ++ d).length) m.length), sev, esl, false, TransactionState.ResponseBody, rp⟩ }, [], d.length + min (esl - (srb ++ d).length) m.length) := by
      simp only [processStep, if_neg (by simp : ¬(false = true))]
      rw [harith, List.take_append, ← List.append_assoc]
      rw [if_neg hcomp]
    rw [appendData]
    simp only
    rw [processStream_cons hcomb hcombpos]
    rw [seqRuns, hchunk]
    simp only [appendData, List.nil_append]
    rw [processStream_cons hstep2 ht2]
    simp only [List.nil_append]
    rw [hdrop]

/-- A stopped buffer also stops the combined run at its first iteration, so
appending commutes trivially. -/
theorem process_append_of_zero {sb : StreamBuffer} (m : Bytes) (hwf : wf sb = true)
    (hzero : (processStep sb).2.2 = 0) :
    processStream (appendData sb m) = seqRuns sb m := by
  have hid := processStep_zero_id hwf hzero
  have hstop := processStream_stop hid
  rw [seqRuns, hstop]
  simp

/-- Strict-inequality consequences of the invariant used by the chunking
analysis. -/
theorem wfTx_reqbody_lt {tx : HttpTransaction} (h : wfTx tx = true)
    (hst : tx.state = TransactionState.RequestBody) :
    tx.req_body.length < tx.expected_req_len :=
  (wfTx_iff.mp h).2.1 hst

theorem wfTx_framed_lt {tx : HttpTransaction} (h : wfTx tx = true)
    (hst : tx.state = TransactionState.ResponseBody) (hsse : tx.is_sse = false) :
    tx.res_body_raw.length < tx.expected_res_len :=
  (wfTx_iff.mp h).2.2.2.1 hst hsse

theorem process_append :
    ∀ (n : Nat) (sb : StreamBuffer) (m : Bytes), sb.data.length ≤ n →
      wf sb = true → sseFree sb = true →
      containsSub ssePat (sb.data ++ m) = false →
      processStream (appendData sb m) = seqRuns sb m := by
  intro n
  induction n with
  | zero =>
    intro sb m hlen hwf hfree hclean
    have hle := processStep_consumed_le sb
    exact process_append_of_zero m hwf (by omega)
  | succ n ih =>
    intro sb m hlen hwf hfree hclean
    by_cases hm : m = []
    · subst hm
      have hfix := processStream_fix hwf
      have hps := processStream_stop hfix
      have ha1 : appendData sb [] = sb := by simp [appendData]
      have ha2 : appendData (processStream sb).1 [] = (processStream sb).1 := by
        simp [appendData]
      rw [seqRuns, ha1, ha2, hps]
      simp
    have hmlen : 0 < m.length := List.length_pos.mpr hm
    obtain ⟨d, otx⟩ := sb
    simp only at hlen
    have hcleand : containsSub ssePat d = false :=
      containsSub_mono hclean (List.prefix_append d m).isInfix
    cases otx with
    | none =>
      cases h : parseRequest d with
      | incomplete =>
        exact process_append_of_zero m hwf (by simp [processStep, h])
      | invalid =>
        exact process_append_of_zero m hwf (by simp [processStep, h])
      | complete amt r =>
        rcases hstep : processStep { data := d, current_tx := none } with ⟨sb1, es, c⟩
        obtain ⟨d1, ntx⟩ := sb1
        have hd1 : d = d1 := by
          have hq := processStep_data_eq { data := d, current_tx := none }
          rw [hstep] at hq
          exact hq.symm
        subst hd1
        have hcq : amt = c := by
          have hq := hstep
          simp only [processStep, h] at hq
          exact congrArg (fun p => p.2.2) hq
        have hamt := parseRequest_amt h
        have hc : 0 < c := by omega
        have hcle : c ≤ d.length := by omega
        have hstepm := processStep_none_append m h hstep
        have hwf1 : wf { data := d.drop c, current_tx := ntx } = true := by
          have hw := processStep_wf hwf
          rw [hstep] at hw
          exact hw
        have hfree1 : sseFree { data := d.drop c, current_tx := ntx } = true := by
          have hw := processStep_sseFree hwf (by simp [sseFree]) hcleand
          rw [hstep] at hw
          exact hw
        have hcleanσ : containsSub ssePat (d.drop c ++ m) = false := by
          rw [← List.drop_append_of_le_length hcle]
          exact containsSub_mono hclean (List.drop_suffix _ _).isInfix
        have hrec := ih { data := d.drop c, current_tx := ntx } m
          (by simp only [List.length_drop]; omega) hwf1 hfree1 hcleanσ
        exact processStream_append_lockstep hc hcle hstep hstepm hrec
    | some tx =>
      obtain ⟨rh, rb, erl, sh, srb, sev, esl, sse, st, rp⟩ := tx
      simp only [sseFree, Bool.not_eq_true'] at hfree
      subst hfree
      cases st with
      | RequestBody =>
        have hB' : rb.length < erl := wfTx_reqbody_lt hwf rfl
        by_cases hfull : erl - rb.length ≤ d.length
        · rcases hstep : processStep { data := d, current_tx := some ⟨rh, rb, erl, sh, srb, sev, esl, false, TransactionState.RequestBody, rp⟩ } with ⟨sb1, es, c⟩
          obtain ⟨d1, ntx⟩ := sb1
          have hd1 : d = d1 := by
            have hq := processStep_data_eq { data := d, current_tx := some ⟨rh, rb, erl, sh, srb, sev, esl, false, TransactionState.RequestBody, rp⟩ }
            rw [hstep] at hq
            exact hq.symm
          subst hd1
          have hcq : min (erl - rb.length) d.length = c := by
            have hq := hstep
            simp only [processStep] at hq
            exact congrArg (fun p => p.2.2) hq
          have hc : 0 < c := by omega
          have hcle : c ≤ d.length := by omega
          have hstepm := processStep_reqbody_full_append m rfl hfull hstep
          have hwf1 : wf { data := d.drop c, current_tx := ntx } = true := by
            have hw := processStep_wf hwf
            rw [hstep] at hw
            exact hw
          have hfree1 : sseFree { data := d.drop c, current_tx := ntx } = true := by
            have hw := processStep_sseFree hwf (by simp [sseFree]) hcleand
            rw [hstep] at hw
            exact hw
          have hcleanσ : containsSub ssePat (d.drop c ++ m) = false := by
            rw [← List.drop_append_of_le_length hcle]
            exact containsSub_mono hclean (List.drop_suffix _ _).isInfix
          have hrec := ih { data := d.drop c, current_tx := ntx } m
            (by simp only [List.length_drop]; omega) hwf1 hfree1 hcleanσ
          exact processStream_append_lockstep hc hcle hstep hstepm hrec
        · by_cases hd : d.length = 0
          · exact process_append_of_zero m hwf (by simp [processStep, hd])
          · exact processAppend_reqbody_partial (by omega) hmlen (by omega)
      | ResponseHeader =>
        cases h : parseResponse d with
        | incomplete =>
          exact process_append_of_zero m hwf (by simp [processStep, h])
        | invalid =>
          exact process_append_of_zero m hwf (by simp [processStep, h])
        | complete amt r =>
          rcases hstep : processStep { data := d, current_tx := some ⟨rh, rb, erl, sh, srb, sev, esl, false, TransactionState.ResponseHeader, rp⟩ } with ⟨sb1, es, c⟩
          obtain ⟨d1, ntx⟩ := sb1
          have hd1 : d = d1 := by
            have hq := processStep_data_eq { data := d, current_tx := some ⟨rh, rb, erl, sh, srb, sev, esl, false, TransactionState.ResponseHeader, rp⟩ }
            rw [hstep] at hq
            exact hq.symm
          subst hd1
          have hcq : amt = c := by
            have hq := hstep
            simp only [processStep, h] at hq
            split at hq
            · exact congrArg (fun p => p.2.2) hq
            · exact congrArg (fun p => p.2.2) hq
          have hamt := parseResponse_amt h
          have hc : 0 < c := by omega
          have hcle : c ≤ d.length := by omega
          have hstepm := processStep_resph_append m rfl h hstep
          have hwf1 : wf { data := d.drop c, current_tx := ntx } = true := by
            have hw := processStep_wf hwf
            rw [hstep] at hw
            exact hw
          have hfree1 : sseFree { data := d.drop c, current_tx := ntx } = true := by
            have hw := processStep_sseFree hwf (by simp [sseFree]) hcleand
            rw [hstep] at hw
            exact hw
          have hcleanσ : containsSub ssePat (d.drop c ++ m) = false := by
            rw [← List.drop_append_of_le_length hcle]
            exact containsSub_mono hclean (List.drop_suffix _ _).isInfix
          have hrec := ih { data := d.drop c, current_tx := ntx } m
            (by simp only [List.length_drop]; omega) hwf1 hfree1 hcleanσ
          exact processStream_append_lockstep hc hcle hstep hstepm hrec
      | ResponseBody =>
        have hD' : srb.length < esl := wfTx_framed_lt hwf rfl rfl
        by_cases hfull : esl - srb.length ≤ d.length
        · rcases hstep : processStep { data := d, current_tx := some ⟨rh, rb, erl, sh, srb, sev, esl, false, TransactionState.ResponseBody, rp⟩ } with ⟨sb1, es, c⟩
          obtain ⟨d1, ntx⟩ := sb1
          have hd1 : d = d1 := by
            have hq := processStep_data_eq { data := d, current_tx := some ⟨rh, rb, erl, sh, srb, sev, esl, false, TransactionState.ResponseBody, rp⟩ }
            rw [hstep] at hq
            exact hq.symm
          subst hd1
          have hcq : min (esl - srb.length) d.length = c := by
            have hq := hstep
            simp only [processStep, if_neg (by simp : ¬(false = true))] at hq
            split at hq
            · exact congrArg (fun p => p.2.2) hq
            · exact congrArg (fun p => p.2.2) hq
          have hc : 0 < c := by omega
          have hcle : c ≤ d.length := by omega
          have hstepm := processStep_framed_full_append m rfl rfl hfull hstep
          have hwf1 : wf { data := d.drop c, current_tx := ntx } = true := by
            have hw := processStep_wf hwf
            rw [hstep] at hw
            exact hw
          have hfree1 : sseFree { data := d.drop c, current_tx := ntx } = true := by
            have hw := processStep_sseFree hwf (by simp [sseFree]) hcleand
            rw [hstep] at hw
            exact hw
          have hcleanσ : containsSub ssePat (d.drop c ++ m) = false := by
            rw [← List.drop_append_of_le_length hcle]
            exact containsSub_mono hclean (List.drop_suffix _ _).isInfix
          have hrec := ih { data := d.drop c, current_tx := ntx } m
            (by simp only [List.length_drop]; omega) hwf1 hfree1 hcleanσ
          exact processStream_append_lockstep hc hcle hstep hstepm hrec
        · by_cases hd : d.length = 0
          · refine process_append_of_zero m hwf ?_
            simp only [processStep, if_neg (by simp : ¬(false = true)), hd, Nat.min_zero]
            split
            · rfl
            · rfl
          · exact processAppend_framed_partial (by omega) hmlen (by omega)

/-- Ingesting chunks one by one equals processing their concatenation at
once, for any flow whose traffic never contains the SSE content type. -/
theorem ingestAll_eq_single :
    ∀ (chunks : List Bytes) (sb : StreamBuffer),
      wf sb = true → sseFree sb = true → processStep sb = (sb, [], 0) →
      containsSub ssePat (sb.data ++ chunks.flatten) = false →
      ingestAll sb chunks =
        processStream { data := sb.data ++ chunks.flatten, current_tx := sb.current_tx } := by
  intro chunks
  induction chunks with
  | nil =>
    intro sb hwf hfree hfix hclean
    simp only [ingestAll, List.flatten_nil, List.append_nil]
    exact (processStream_stop hfix).symm
  | cons c rest ih =>
    intro sb hwf hfree hfix hclean
    have hclean1 : containsSub ssePat (sb.data ++ c) = false := by
      refine containsSub_mono hclean ?_
      rw [List.flatten_cons, ← List.append_assoc]
      exact (List.prefix_append _ _).isInfix
    have hmaster := process_append (sb.data ++ c).length
      { data := sb.data ++ c, current_tx := sb.current_tx } rest.flatten
      (Nat.le_refl _) hwf hfree
      (by
        simp only
        rw [List.append_assoc, ← List.flatten_cons]
        exact hclean)
    set r1 := processStream { data := sb.data ++ c, current_tx := sb.current_tx } with hr1
    have hwf1 : wf r1.1 = true := processStream_wf hwf
    have hfree1 : sseFree r1.1 = true := processStream_sseFree hwf hfree hclean1
    have hfix1 : processStep r1.1 = (r1.1, [], 0) := processStream_fix hwf
    have hsuf : r1.1.data <:+ sb.data ++ c :=
      processStream_data_suffix { data := sb.data ++ c, current_tx := sb.current_tx }
    have hclean2 : containsSub ssePat (r1.1.data ++ rest.flatten) = false := by
      refine containsSub_mono hclean ?_
      obtain ⟨t, ht⟩ := hsuf
      refine ⟨t, [], ?_⟩
      rw [List.append_nil, List.flatten_cons, ← List.append_assoc, ht, List.append_assoc]
    have hrec := ih r1.1 hwf1 hfree1 hfix1 hclean2
    rw [show ingestAll sb (c :: rest) = ((ingestAll (ingest sb c).1 rest).1, (ingest sb c).2 ++ (ingestAll (ingest sb c).1 rest).2) from rfl]
    have hing : ingest sb c = r1 := rfl
    rw [hing, hrec]
    have hgoal : sb.data ++ (c :: rest).flatten = sb.data ++ c ++ rest.flatten := by
      rw [List.flatten_cons, ← List.append_assoc]
    rw [hgoal]
    rw [show processStream { data := sb.data ++ c ++ rest.flatten, current_tx := sb.current_tx } = processStream (appendData { data := sb.data ++ c, current_tx := sb.current_tx } rest.flatten) from rfl]
    rw [hmaster, seqRuns]
    rfl
/-- Claim C1, counterexample: chunking invariance fails as stated.  For the
SSE flow below, delivering the payload in two chunks (split inside an event)
yields two `on_sse_update` emissions with event lists ["data: a"] and
["data: a", "b"], while the single-chunk run yields one emission with
["data: ab"]: the emitted sequences differ, both in length and in the SSE
event lists. -/
theorem c1_chunking_counterexample :
    (ingestAll { data := [], current_tx := none }
      [chrs ("GET /e HTTP/1.1\r\n\r\nHTTP/1.1 200 OK\r\nContent-Type: text/event-stream\r\n\r\ndata: a"), chrs ("b\n\n")]).2 ≠
    (ingestAll { data := [], current_tx := none }
      [chrs ("GET /e HTTP/1.1\r\n\r\nHTTP/1.1 200 OK\r\nContent-Type: text/event-stream\r\n\r\ndata: a") ++ chrs ("b\n\n")]).2 := by
  decide

/-- Claim C1 (amended): chunking invariance holds for every flow whose
payload bytes never contain the substring "text/event-stream" (so no
response is ever classified as SSE; the SSE branch of `process_stream`
consumes all buffered bytes eagerly and is the sole source of
chunking-dependence).  For any partition of such a payload into consecutive
chunks, ingesting the chunks in order on a fresh flow produces the same final
buffer state and the same sequence of emitter calls, with the same
transaction contents, as ingesting the whole payload at once. -/
theorem c1_chunking_invariance_amended (chunks : List Bytes)
    (hclean : containsSub ssePat chunks.flatten = false) :
    ingestAll { data := [], current_tx := none } chunks =
      processStream { data := chunks.flatten, current_tx := none } := by
  have hfix : processStep { data := ([] : Bytes), current_tx := none } =
      ({ data := ([] : Bytes), current_tx := none }, [], 0) := rfl
  have h := ingestAll_eq_single chunks { data := [], current_tx := none } rfl rfl hfix
    (by simpa using hclean)
  simpa using h

/-- Witness for the amended C1: a concrete two-chunk framed exchange
(request in the first chunk, response in the second) equals the single-chunk
run. -/
theorem c1_chunking_invariance_amended_witness :
    ingestAll { data := [], current_tx := none }
      [chrs ("GET /a HTTP/1.1\r\nHost: x\r\n\r\n"), chrs ("HTTP/1.1 200 OK\r\nContent-Length: 2\r\n\r\nok")] =
    processStream { data := (List.flatten [chrs ("GET /a HTTP/1.1\r\nHost: x\r\n\r\n"), chrs ("HTTP/1.1 200 OK\r\nContent-Length: 2\r\n\r\nok")]), current_tx := none } :=
  c1_chunking_invariance_amended
    [chrs ("GET /a HTTP/1.1\r\nHost: x\r\n\r\n"), chrs ("HTTP/1.1 200 OK\r\nContent-Length: 2\r\n\r\nok")]
    (by decide)
theorem foldl_cl_eq_find_rev :
    ∀ (hs : List HeaderKV) (a : Nat),
      hs.foldl
        (fun acc kv =>
          if lowerB kv.name = chrs ("content-length") then (parseUsize kv.value).getD 0 else acc)
        a =
      ((hs.reverse.find?
          (fun kv => decide (lowerB kv.name = chrs ("content-length")))).map
        (fun kv => (parseUsize kv.value).getD 0)).getD a := by
  intro hs
  induction hs with
  | nil => intro a; rfl
  | cons kv t ih =>
    intro a
    simp only [List.foldl_cons, List.reverse_cons, List.find?_append]
    rw [ih]
    cases hfind : t.reverse.find?
        (fun kv => decide (lowerB kv.name = chrs ("content-length"))) with
    | some x => simp [hfind]
    | none =>
      simp only [hfind, Option.none_or]
      by_cases hp : lowerB kv.name = chrs ("content-length")
      · simp [List.find?, hp]
      · simp [List.find?, hp]

/-- Claim C2, counterexample: for a request with two Content-Length headers
(values 5 then 3), the first occurrence carries 5, but the transaction is
created with `expected_req_len = 3` — the code's header loop overwrites
`content_len` on every matching header, so the last occurrence wins, not the
first. -/
theorem c2_first_header_counterexample :
    (match parseRequest (chrs ("GET / HTTP/1.1\r\nContent-Length: 5\r\nContent-Length: 3\r\n\r\n")) with
      | .complete _ r => contentLenFirst r.headers
      | _ => 0) = 5 ∧
    ((processStream { data := chrs ("GET / HTTP/1.1\r\nContent-Length: 5\r\nContent-Length: 3\r\n\r\n"), current_tx := none }).1.current_tx.map
      (fun tx => tx.expected_req_len)) = some 3 := by
  decide

/-- Claim C2 (amended): when several Content-Length headers occur, the LAST
occurrence determines `expected_req_len` / `expected_res_len` (the code's
fold overwrites the value at each matching header, the extraction being the
first match of the reversed header list, i.e. `contentLenFirst` on the
reversed list); and `is_sse` is set precisely when the flag was already set
or SOME Content-Type header value contains "text/event-stream".  Duplicates
are all displayed in `h_str`. -/
theorem c2_duplicate_headers_amended (hs : List HeaderKV) (b : Bool) :
    contentLenOf hs = contentLenFirst hs.reverse ∧
    (sseFold b hs = true ↔
      (b = true ∨ ∃ kv ∈ hs, lowerB kv.name = chrs ("content-type") ∧
        containsSub ssePat kv.value = true)) := by
  constructor
  · rw [contentLenOf, contentLenFirst, foldl_cl_eq_find_rev]
  · induction hs generalizing b with
    | nil => simp [sseFold]
    | cons kv t ih =>
      simp only [sseFold, List.foldl_cons]
      simp only [sseFold] at ih
      rw [ih]
      by_cases hp : lowerB kv.name = chrs ("content-type") ∧ containsSub ssePat kv.value
      · simp only [if_pos hp]
        constructor
        · intro _
          exact Or.inr ⟨kv, by simp, hp.1, hp.2⟩
        · intro _
          exact Or.inl trivial
      · simp only [if_neg hp]
        constructor
        · rintro (hb | ⟨kv2, hkv2, h1, h2⟩)
          · exact Or.inl hb
          · exact Or.inr ⟨kv2, by simp [hkv2], h1, h2⟩
        · rintro (hb | ⟨kv2, hkv2, h1, h2⟩)
          · exact Or.inl hb
          · rcases List.mem_cons.mp hkv2 with heq | hmem
            · subst heq
              exact absurd ⟨h1, h2⟩ hp
            · exact Or.inr ⟨kv2, hmem, h1, h2⟩
/-- Claim C3, counterexample: a run whose single packet carries only a
complete request header ends (end-of-stream) with the flow holding an
in-progress transaction whose `req_header` text is non-empty, yet the total
emission sequence of `run_analysis` is empty — no terminal flush pass exists
in the code (run_analysis, src/main.rs:122-152, ends with its capture loop),
so nothing is printed for the flow, contradicting the claimed flush. -/
theorem c3_no_flush_counterexample :
    (runAnalysis [⟨IpAddr.v4 10 0 0 1, 1234, IpAddr.v4 10 0 0 2, 80, chrs ("GET / HTTP/1.1\r\n\r\n")⟩]).2 = [] ∧
    ((lookupFT (runAnalysis [⟨IpAddr.v4 10 0 0 1, 1234, IpAddr.v4 10 0 0 2, 80, chrs ("GET / HTTP/1.1\r\n\r\n")⟩]).1
        (FlowKey.new (IpAddr.v4 10 0 0 1) 1234 (IpAddr.v4 10 0 0 2) 80)).bind
      (fun sb => sb.current_tx.map (fun tx => tx.req_header.isEmpty))) = some false := by
  decide

/-- Claim C3 (amended): when the capture source reports end-of-stream, no
terminal flush pass runs: `run_analysis` returns as soon as its capture loop
ends, contributing no emitter calls, so the emissions of a whole run are
exactly those produced by `process_stream` during packet ingestion and
in-progress transactions are dropped silently. -/
theorem c3_terminal_flush_amended :
    (∀ t : FlowTable, flushFinal t = []) ∧
    (∀ pkts : List PacketRec, (runAnalysis pkts).2 = (runAnalysisLoop [] pkts).2) := by
  constructor
  · intro t
    rfl
  · intro pkts
    simp [runAnalysis, flushFinal]
theorem lexLt_asymm : ∀ {xs ys : List Nat}, lexLt xs ys = true → lexLt ys xs = false := by
  intro xs
  induction xs with
  | nil =>
    intro ys h
    cases ys with
    | nil => simp [lexLt] at h
    | cons y t => simp [lexLt]
  | cons x xt ih =>
    intro ys h
    cases ys with
    | nil => simp [lexLt] at h
    | cons y t =>
      simp only [lexLt, Bool.or_eq_true, Bool.and_eq_true, decide_eq_true_eq] at h ⊢
      rcases h with h | ⟨heq, hlt⟩
      · simp only [Bool.or_eq_false_iff, Bool.and_eq_false_iff]
        constructor
        · simp only [decide_eq_false_iff_not]
          omega
        · left
          simp only [decide_eq_false_iff_not]
          omega
      · simp only [Bool.or_eq_false_iff, Bool.and_eq_false_iff]
        constructor
        · simp only [decide_eq_false_iff_not]
          omega
        · right
          exact ih hlt

theorem lexLt_conn : ∀ {xs ys : List Nat},
    lexLt xs ys = false → lexLt ys xs = false → xs = ys := by
  intro xs
  induction xs with
  | nil =>
    intro ys h1 h2
    cases ys with
    | nil => rfl
    | cons y t => simp [lexLt] at h1
  | cons x xt ih =>
    intro ys h1 h2
    cases ys with
    | nil => simp [lexLt] at h2
    | cons y t =>
      simp only [lexLt, Bool.or_eq_false_iff, Bool.and_eq_false_iff,
        decide_eq_false_iff_not] at h1 h2
      obtain ⟨hx1, hx2⟩ := h1
      obtain ⟨hy1, hy2⟩ := h2
      have hxy : x = y := by omega
      subst hxy
      rcases hx2 with hx2 | hx2
      · omega
      · rcases hy2 with hy2 | hy2
        · omega
        · rw [ih hx2 hy2]

theorem epKey_inj {a b : IpAddr} {ap bp : Nat}
    (h : a.key ++ [ap] = b.key ++ [bp]) : a = b ∧ ap = bp := by
  cases a <;> cases b <;> simp [IpAddr.key] at h <;> simp_all

/-- Claim C5: FlowKey construction is direction-insensitive — building a key
from either direction of the same connection yields identical keys, because
the smaller (address, port) endpoint under the lexicographic tuple order is
always placed first. -/
theorem c5_flowkey_symmetric (src : IpAddr) (sp : Nat) (dst : IpAddr) (dp : Nat) :
    FlowKey.new src sp dst dp = FlowKey.new dst dp src sp := by
  unfold FlowKey.new
  by_cases h1 : epLt src sp dst dp = true
  · have h2 : epLt dst dp src sp = false := lexLt_asymm h1
    rw [if_pos h1, if_neg (by rw [h2]; simp)]
  · have h1' : epLt src sp dst dp = false := by
      cases h : epLt src sp dst dp
      · rfl
      · exact absurd h h1
    by_cases h2 : epLt dst dp src sp = true
    · rw [if_neg h1, if_pos h2]
    · have h2' : epLt dst dp src sp = false := by
        cases h : epLt dst dp src sp
        · rfl
        · exact absurd h h2
      have hkeys := @lexLt_conn (src.key ++ [sp]) (dst.key ++ [dp]) h1' h2'
      obtain ⟨ha, hp⟩ := epKey_inj hkeys
      subst ha
      subst hp
      rfl

theorem processStep_sseKeep {sb : StreamBuffer} {tx : HttpTransaction}
    (htx : sb.current_tx = some tx) (hsse : tx.is_sse = true)
    (hst : tx.state = TransactionState.ResponseBody) :
    ∃ tx2, (processStep sb).1.current_tx = some tx2 ∧ tx2.is_sse = true ∧
      tx2.state = TransactionState.ResponseBody ∧
      ∀ e ∈ (processStep sb).2.1, e.is_sse = true := by
  obtain ⟨d, otx⟩ := sb
  simp only at htx
  subst htx
  simp only [processStep, hst]
  rw [if_pos hsse]
  refine ⟨_, rfl, hsse, rfl, ?_⟩
  intro e he
  simp only at he
  by_cases hne : ((splitNN d).filterMap
      (fun e => if trimEvent e = [] then none else some (trimEvent e))) = []
  · rw [if_pos hne] at he
    simp at he
  · rw [if_neg hne] at he
    simp only [List.mem_singleton] at he
    subst he
    exact hsse

theorem processStream_sseKeep_aux :
    ∀ (n : Nat) (sb : StreamBuffer) (tx : HttpTransaction),
      sb.data.length ≤ n →
      sb.current_tx = some tx → tx.is_sse = true →
      tx.state = TransactionState.ResponseBody →
      ∃ tx2, (processStream sb).1.current_tx = some tx2 ∧ tx2.is_sse = true ∧
        tx2.state = TransactionState.ResponseBody ∧
        ∀ e ∈ (processStream sb).2, e.is_sse = true := by
  intro n
  induction n with
  | zero =>
    intro sb tx hlen htx hsse hst
    rcases hstep : processStep sb with ⟨sb1, es, c⟩
    have hle := processStep_consumed_le sb
    rw [hstep] at hle
    simp only at hle
    have hc : c = 0 := by omega
    subst hc
    rw [processStream_stop hstep]
    have hk := processStep_sseKeep htx hsse hst
    rw [hstep] at hk
    exact hk
  | succ n ih =>
    intro sb tx hlen htx hsse hst
    rcases hstep : processStep sb with ⟨sb1, es, c⟩
    by_cases hc : 0 < c
    · rw [processStream_cons hstep hc]
      have hle := processStep_consumed_le sb
      have hdata := processStep_data_eq sb
      rw [hstep] at hle hdata
      simp only at hle hdata
      have hk := processStep_sseKeep htx hsse hst
      rw [hstep] at hk
      obtain ⟨tx1, htx1, hsse1, hst1, hes⟩ := hk
      simp only at htx1 hes
      have hrec := ih { data := sb1.data.drop c, current_tx := sb1.current_tx } tx1
        (by simp only [List.length_drop, hdata]; omega) (by simpa using htx1) hsse1 hst1
      obtain ⟨tx2, htx2, hsse2, hst2, hes2⟩ := hrec
      refine ⟨tx2, htx2, hsse2, hst2, ?_⟩
      intro e he
      rcases List.mem_append.mp he with he | he
      · exact hes e he
      · exact hes2 e he
    · have hc0 : c = 0 := by omega
      subst hc0
      rw [processStream_stop hstep]
      have hk := processStep_sseKeep htx hsse hst
      rw [hstep] at hk
      exact hk

/-- Claim C6: once a transaction is in RESPONSE_BODY with `is_sse` set, the
state machine never clears `current_tx` and never takes the framed
completion path: after ingesting any payload the flow still holds an SSE
transaction in RESPONSE_BODY (so a subsequent request on the flow can never
be parsed — the request-parse branch requires `current_tx` to be empty), and
every emission produced is an SSE update (`is_sse = true`), never a framed
completion. -/
theorem c6_sse_never_cleared (sb : StreamBuffer) (tx : HttpTransaction) (payload : Bytes)
    (htx : sb.current_tx = some tx) (hsse : tx.is_sse = true)
    (hst : tx.state = TransactionState.ResponseBody) :
    ∃ tx2, (ingest sb payload).1.current_tx = some tx2 ∧ tx2.is_sse = true ∧
      tx2.state = TransactionState.ResponseBody ∧
      ∀ e ∈ (ingest sb payload).2, e.is_sse = true := by
  unfold ingest
  exact processStream_sseKeep_aux (sb.data ++ payload).length
    { data := sb.data ++ payload, current_tx := sb.current_tx } tx (Nat.le_refl _)
    (by simpa using htx) hsse hst

/-- Witness for C6: a concrete SSE transaction in RESPONSE_BODY receiving one
more event chunk stays in progress and emits only SSE updates. -/
theorem c6_sse_never_cleared_witness :
    ∃ tx2, (ingest { data := [], current_tx := some ⟨chrs ("h"), [], 0, chrs ("r"), [], [chrs ("data: a")], 0, true, TransactionState.ResponseBody, false⟩ } (chrs ("data: b\n\n"))).1.current_tx = some tx2 ∧
      tx2.is_sse = true ∧ tx2.state = TransactionState.ResponseBody ∧
      ∀ e ∈ (ingest { data := [], current_tx := some ⟨chrs ("h"), [], 0, chrs ("r"), [], [chrs ("data: a")], 0, true, TransactionState.ResponseBody, false⟩ } (chrs ("data: b\n\n"))).2, e.is_sse = true :=
  c6_sse_never_cleared _ _ _ rfl rfl rfl

theorem stepSafeNow_of_wf {sb : StreamBuffer} (hwf : wf sb = true) :
    stepSafeNow sb = true := by
  obtain ⟨d, otx⟩ := sb
  rw [stepSafeNow]
  rw [Bool.and_eq_true]
  refine ⟨decide_eq_true (processStep_consumed_le _), ?_⟩
  cases otx with
  | none => rfl
  | some tx =>
    simp only [wf] at hwf
    obtain ⟨hA, hB, hC, hD, hE⟩ := wfTx_iff.mp hwf
    simp only
    cases hst : tx.state with
    | RequestBody => exact decide_eq_true hA
    | ResponseHeader => rfl
    | ResponseBody =>
      cases hsse : tx.is_sse with
      | true => rfl
      | false =>
        simp only [Bool.false_or]
        exact decide_eq_true (Nat.le_of_lt (hD hst hsse))

theorem runSafeAux_of_wf : ∀ (f : Nat) (sb : StreamBuffer), wf sb = true →
    runSafeAux f sb = true := by
  intro f
  induction f with
  | zero => intro sb hwf; rfl
  | succ f ih =>
    intro sb hwf
    rw [runSafeAux]
    rw [Bool.and_eq_true]
    refine ⟨stepSafeNow_of_wf hwf, ?_⟩
    rcases hstep : processStep sb with ⟨sb1, es, c⟩
    simp only
    by_cases hc : 0 < c
    · rw [if_pos hc]
      have hw := processStep_wf hwf
      rw [hstep] at hw
      exact ih _ hw
    · rw [if_neg hc]

/-- Claim C8: the state machine never crashes.  In the embedding every run is
a total function; this theorem states the two Rust-level crash risks are
absent: along every iteration of the `process_stream` loop on any payload
appended to an invariant-satisfying buffer (in particular any payload fed to
a fresh flow, however malformed), the `usize` subtractions
`expected_req_len - req_body.len()` and `expected_res_len -
res_body_raw.len()` never underflow, and the consumed count never exceeds
the buffer length, so `data[..take]` and `data.drain(..consumed)` stay in
bounds. -/
theorem c8_no_crash (sb : StreamBuffer) (payload : Bytes) (f : Nat)
    (hwf : wf sb = true) :
    runSafeAux f { data := sb.data ++ payload, current_tx := sb.current_tx } = true :=
  runSafeAux_of_wf f _ hwf

/-- Witness for C8: a malformed, non-UTF-8 payload with an unparseable
Content-Length on a fresh flow passes every safety check. -/
theorem c8_no_crash_witness :
    runSafeAux 64 { data := ([] : Bytes) ++ (chrs ("POST / HTTP/1.1\r\nContent-Length: zz\r\n\r\n") ++ [255, 254, 0, 10]), current_tx := none } = true :=
  c8_no_crash { data := [], current_tx := none }
    (chrs ("POST / HTTP/1.1\r\nContent-Length: zz\r\n\r\n") ++ [255, 254, 0, 10]) 64 rfl

/-- Claim C7: the body-length invariants hold in every reachable state. The
fresh buffer satisfies the invariant; in any invariant state the in-progress
transaction obeys `req_body.len ≤ expected_req_len` and (when not SSE)
`res_body_raw.len ≤ expected_res_len`; and ingesting any payload preserves
the invariant, so every state reachable from a fresh flow keeps both
bounds. -/
theorem c7_body_bounds (sb : StreamBuffer) (payload : Bytes) (hwf : wf sb = true) :
    wf { data := [], current_tx := none } = true ∧
    (∀ tx, sb.current_tx = some tx →
      tx.req_body.length ≤ tx.expected_req_len ∧
      (tx.is_sse = false → tx.res_body_raw.length ≤ tx.expected_res_len)) ∧
    wf (ingest sb payload).1 = true := by
  refine ⟨rfl, ?_, ?_⟩
  · intro tx htx
    obtain ⟨d, otx⟩ := sb
    simp only at htx
    subst htx
    simp only [wf] at hwf
    obtain ⟨hA, hB, hC, hD, hE⟩ := wfTx_iff.mp hwf
    refine ⟨hA, ?_⟩
    intro hsse
    by_cases hst : tx.state = TransactionState.ResponseBody
    · exact Nat.le_of_lt (hD hst hsse)
    · rw [hC hst]
      simp
  · exact processStream_wf hwf

/-- Witness for C7: a buffer holding a half-filled framed response satisfies
the bounds and still does after ingesting another byte. -/
theorem c7_body_bounds_witness :
    wf { data := [], current_tx := none } = true ∧
    (∀ tx, ({ data := chrs ("k"), current_tx := some ⟨chrs ("h"), [], 0, chrs ("r"), chrs ("o"), [], 2, false, TransactionState.ResponseBody, false⟩ } : StreamBuffer).current_tx = some tx →
      tx.req_body.length ≤ tx.expected_req_len ∧
      (tx.is_sse = false → tx.res_body_raw.length ≤ tx.expected_res_len)) ∧
    wf (ingest { data := chrs ("k"), current_tx := some ⟨chrs ("h"), [], 0, chrs ("r"), chrs ("o"), [], 2, false, TransactionState.ResponseBody, false⟩ } (chrs ("x"))).1 = true :=
  c7_body_bounds _ _ (by decide)

theorem wfTx_resraw_nil {tx : HttpTransaction} (h : wfTx tx = true)
    (hst : tx.state ≠ TransactionState.ResponseBody) : tx.res_body_raw = [] :=
  (wfTx_iff.mp h).2.2.1 hst

/-- Claim C4: for framed (non-SSE) transactions, `output_transaction` fires
exactly at the moment `res_body_raw` reaches `expected_res_len` (immediately
after the response header when the declared length is 0), and `current_tx`
is cleared in the same iteration.  Part one: any non-SSE emission of a step
comes with `current_tx = none` and a body exactly at its declared length, so
a completed framed transaction can never be emitted again.  Part two: a
framed transaction in RESPONSE_BODY whose missing bytes are available emits
exactly one completion and clears the transaction. -/
theorem c4_on_complete_once (sb : StreamBuffer) (hwf : wf sb = true) :
    (∀ e ∈ (processStep sb).2.1, e.is_sse = false →
      (processStep sb).1.current_tx = none ∧
      e.res_body_raw.length = e.expected_res_len) ∧
    (∀ tx, sb.current_tx = some tx → tx.state = TransactionState.ResponseBody →
      tx.is_sse = false →
      tx.expected_res_len ≤ tx.res_body_raw.length + sb.data.length →
      ∃ e, (processStep sb).2.1 = [e] ∧ (processStep sb).1.current_tx = none ∧
        e.res_body_raw.length = e.expected_res_len) := by
  obtain ⟨d, otx⟩ := sb
  cases otx with
  | none =>
    constructor
    · intro e he hesse
      simp only [processStep] at he
      cases h : parseRequest d with
      | complete amt r => rw [h] at he; simp at he
      | incomplete => rw [h] at he; simp at he
      | invalid => rw [h] at he; simp at he
    · intro tx htx
      simp at htx
  | some tx =>
    obtain ⟨rh, rb, erl, sh, srb, sev, esl, sse, st, rp⟩ := tx
    simp only [wf] at hwf
    constructor
    · intro e he hesse
      cases st with
      | RequestBody =>
        simp only [processStep] at he
        simp at he
      | ResponseHeader =>
        simp only [processStep] at he
        cases h : parseResponse d with
        | complete amt r =>
          rw [h] at he
          simp only at he
          by_cases hcond : (sseFold sse r.headers = false ∧ contentLenOf r.headers = 0)
          · rw [if_pos hcond] at he
            simp only [List.mem_singleton] at he
            subst he
            constructor
            · simp only [processStep, h]
              rw [if_pos hcond]
            · have hsrb : srb = [] := wfTx_resraw_nil hwf (by simp)
              simp only [hsrb, hcond.2]
              rfl
          · rw [if_neg hcond] at he
            simp at he
        | incomplete => rw [h] at he; simp at he
        | invalid => rw [h] at he; simp at he
      | ResponseBody =>
        cases hsse : sse with
        | true =>
          simp only [processStep] at he
          rw [if_pos hsse] at he
          simp only at he
          split at he
          · simp at he
          · simp only [List.mem_singleton] at he
            subst he
            rw [hsse] at hesse
            simp at hesse
        | false =>
          simp only [processStep] at he
          rw [if_neg (by simp [hsse] : ¬(sse = true))] at he
          by_cases hfull : (srb ++ d.take (min (esl - srb.length) d.length)).length ≥ esl
          · rw [if_pos hfull] at he
            simp only [List.mem_singleton] at he
            subst he
            constructor
            · simp only [processStep]
              rw [if_neg (by simp : ¬(false = true))]
              rw [if_pos hfull]
            · have hD' : srb.length < esl := wfTx_framed_lt hwf rfl hsse
              simp only [List.length_append, List.length_take] at hfull ⊢
              omega
          · rw [if_neg hfull] at he
            simp at he
    · intro tx2 htx2 hst2 hsse2 henough
      simp only at htx2
      injection htx2 with h
      subst h
      simp only at hst2 hsse2 henough
      subst hst2
      subst hsse2
      have hD' : srb.length < esl := wfTx_framed_lt hwf rfl rfl
      simp only [processStep]
      rw [if_neg (by simp : ¬(false = true))]
      have hfull : (srb ++ d.take (min (esl - srb.length) d.length)).length ≥ esl := by
        simp only [List.length_append, List.length_take]
        omega
      rw [if_pos hfull]
      refine ⟨_, rfl, rfl, ?_⟩
      simp only [List.length_append, List.length_take]
      omega

/-- Witness for C4: a framed transaction expecting two body bytes with both
available emits exactly one completion, with the body exactly filled, and
the transaction is cleared. -/
theorem c4_on_complete_once_witness :
    (∀ e ∈ (processStep { data := chrs ("ok"), current_tx := some ⟨chrs ("h"), [], 0, chrs ("r"), [], [], 2, false, TransactionState.ResponseBody, false⟩ }).2.1, e.is_sse = false →
      (processStep { data := chrs ("ok"), current_tx := some ⟨chrs ("h"), [], 0, chrs ("r"), [], [], 2, false, TransactionState.ResponseBody, false⟩ }).1.current_tx = none ∧
      e.res_body_raw.length = e.expected_res_len) ∧
    (∀ tx, ({ data := chrs ("ok"), current_tx := some ⟨chrs ("h"), [], 0, chrs ("r"), [], [], 2, false, TransactionState.ResponseBody, false⟩ } : StreamBuffer).current_tx = some tx →
      tx.state = TransactionState.ResponseBody → tx.is_sse = false →
      tx.expected_res_len ≤ tx.res_body_raw.length + (chrs ("ok")).length →
      ∃ e, (processStep { data := chrs ("ok"), current_tx := some ⟨chrs ("h"), [], 0, chrs ("r"), [], [], 2, false, TransactionState.ResponseBody, false⟩ }).2.1 = [e] ∧
        (processStep { data := chrs ("ok"), current_tx := some ⟨chrs ("h"), [], 0, chrs ("r"), [], [], 2, false, TransactionState.ResponseBody, false⟩ }).1.current_tx = none ∧
        e.res_body_raw.length = e.expected_res_len) :=
  c4_on_complete_once _ (by decide)

/-- Claim C9: `process_stream` terminates on every finite buffer and reaches
a fixed point.  Every iteration consumes at most the buffered bytes; an
iteration that consumes at least one byte strictly shrinks the buffer; and
the fuel-indexed loop is already stable at `data.length + 1` iterations, so
the run is the fixed point of the step function after finitely many steps
(an iteration that consumes zero bytes stops the loop by construction of
`processAux`). -/
theorem c9_terminates_fixed_point :
    (∀ sb : StreamBuffer, stepConsumed sb ≤ sb.data.length) ∧
    (∀ sb : StreamBuffer, 0 < stepConsumed sb →
      (sb.data.drop (stepConsumed sb)).length < sb.data.length) ∧
    (∀ (f : Nat) (sb : StreamBuffer), sb.data.length < f →
      processAux f sb = processStream sb) := by
  refine ⟨?_, ?_, ?_⟩
  · intro sb
    exact processStep_consumed_le sb
  · intro sb hc
    have hle := processStep_consumed_le sb
    simp only [List.length_drop]
    unfold stepConsumed at hc ⊢
    omega
  · intro f sb hf
    exact processAux_fuel hf (Nat.lt_succ_self _)

/-- Witness for C9: on a buffer holding one complete request header, the
first iteration strictly shrinks the buffer, and any sufficient fuel yields
the same run as the canonical `data.length + 1`. -/
theorem c9_terminates_fixed_point_witness :
    (({ data := chrs ("GET / HTTP/1.1\r\n\r\n"), current_tx := none } : StreamBuffer).data.drop
      (stepConsumed { data := chrs ("GET / HTTP/1.1\r\n\r\n"), current_tx := none })).length <
      ({ data := chrs ("GET / HTTP/1.1\r\n\r\n"), current_tx := none } : StreamBuffer).data.length ∧
    processAux 99 { data := chrs ("GET / HTTP/1.1\r\n\r\n"), current_tx := none } =
      processStream { data := chrs ("GET / HTTP/1.1\r\n\r\n"), current_tx := none } :=
  ⟨c9_terminates_fixed_point.2.1 { data := chrs ("GET / HTTP/1.1\r\n\r\n"), current_tx := none }
      (by decide),
    c9_terminates_fixed_point.2.2 99 { data := chrs ("GET / HTTP/1.1\r\n\r\n"), current_tx := none }
      (by decide)⟩

/-- Claim C10: a well-formed request whose header block holds 65 headers
overflows the 64-entry header array (`httparse` reports TooManyHeaders, an
error outcome), `process_stream` consumes zero bytes, and the flow makes no
further progress no matter how many additional bytes arrive: the whole run
leaves the buffer untouched, creates no transaction and emits nothing — a
limit the spec never states. -/
theorem c10_header_limit_stuck :
    parseRequest (chrs ("GET / HTTP/1.1\r\n") ++ (List.replicate 65 (chrs ("a: 1\r\n"))).flatten ++ chrs ("\r\n")) = PStatus.invalid ∧
    ∀ more : Bytes,
      processStream { data := (chrs ("GET / HTTP/1.1\r\n") ++ (List.replicate 65 (chrs ("a: 1\r\n"))).flatten ++ chrs ("\r\n")) ++ more, current_tx := none } =
        ({ data := (chrs ("GET / HTTP/1.1\r\n") ++ (List.replicate 65 (chrs ("a: 1\r\n"))).flatten ++ chrs ("\r\n")) ++ more, current_tx := none }, []) := by
  have hinv : parseRequest (chrs ("GET / HTTP/1.1\r\n") ++ (List.replicate 65 (chrs ("a: 1\r\n"))).flatten ++ chrs ("\r\n")) = PStatus.invalid := by
    set_option maxRecDepth 20000 in decide
  refine ⟨hinv, ?_⟩
  intro more
  have hinv2 := parseRequest_append_invalid more hinv
  have hzero : processStep { data := (chrs ("GET / HTTP/1.1\r\n") ++ (List.replicate 65 (chrs ("a: 1\r\n"))).flatten ++ chrs ("\r\n")) ++ more, current_tx := none } =
      ({ data := (chrs ("GET / HTTP/1.1\r\n") ++ (List.replicate 65 (chrs ("a: 1\r\n"))).flatten ++ chrs ("\r\n")) ++ more, current_tx := none }, [], 0) := by
    simp only [processStep, hinv2]
  exact processStream_stop hzero
